import Mathlib

/-!
Verification development for the `es-deep-pager` repository
(`src/rust/es_deep_pager/src/deep_page_client.rs`).

The Rust module `deep_page_client` is shallowly embedded here:

* the in-repo JSON walker (`EsJsonAnalyzer`, `EsJson`) is modelled as a
  character-cursor state machine over `List Char`, exactly mirroring the
  source functions (`goto_next_char`, `count_prev_char`, `skip_space`,
  `read_json_literal`, `read_json_string`, `read_json_value`,
  `read_json_array`, `read_json_object`, `read_json_key_value`,
  `from_json`, `to_json`);
* the client (`search`, `query`, `count`, `find_new_from`,
  `build_range_query`, `build_cmp_query`, `post`) is modelled as a
  function over an abstract transport oracle that supplies the body of
  each HTTP response in call order; the model additionally records the
  sequence of requests sent, so that spec claims about request bodies
  can be stated.

Rust panics (`unwrap`, `assert!`, slice indexing, integer underflow) are
modelled by the `PRes.panic` outcome; Rust `Err` results by `PRes.err`.
Loops whose termination is not structural carry an explicit fuel
parameter; running out of fuel is the distinct outcome `PRes.fuelOut`
(the corresponding source behaviour would be to keep looping).
Machine integers (`i64`) are modelled as unbounded `Int`; `usize`
cursor positions as `Nat` with underflow modelled as a panic.
-/

set_option maxHeartbeats 1000000
set_option maxRecDepth 100000

namespace EsDeepPager

/-- Outcome of a modelled Rust computation: `fuelOut` (the model's fuel ran
out), `panic` (the Rust code would panic), `err` (the Rust code returns
`Err(Error::Message _)`), or `ok`. -/
inductive PRes (α : Type) where
  | fuelOut : PRes α
  | panic : PRes α
  | err : String → PRes α
  | ok : α → PRes α
deriving DecidableEq, Repr

/-- Propagate failure, continue on `ok` (the model of Rust `?` plus panic
propagation). -/
def PRes.bind {α β : Type} : PRes α → (α → PRes β) → PRes β
  | .fuelOut, _ => .fuelOut
  | .panic, _ => .panic
  | .err e, _ => .err e
  | .ok a, f => f a

/-- The character `"` (written via its code point to keep JSON literals in
this file free of delicate escape sequences). -/
def quoteChar : Char := Char.ofNat 34

/-- The character `\`. -/
def backslashChar : Char := Char.ofNat 92

/-- The character `{`. -/
def lbraceChar : Char := Char.ofNat 123

/-- The character `}`. -/
def rbraceChar : Char := Char.ofNat 125

/-- `enum EsJson` from the source: a JSON tree of arrays, ordered key/value
objects and raw strings (string tokens keep their surrounding quotes,
literals their raw text). -/
inductive EsJson where
  | Array : List EsJson → EsJson
  | Object : List (String × EsJson) → EsJson
  | String : String → EsJson

/-- `struct EsJsonAnalyzer` from the source: the characters of the input,
its length, the cursor position and the cached current character.  As in
the source, `character` is updated only while the cursor stays in range,
so it goes stale once `position` reaches `length`. -/
structure EsJsonAnalyzer where
  json : List Char
  length : Nat
  position : Nat
  character : Char
deriving DecidableEq, Repr

namespace EsJsonAnalyzer

/-- `EsJsonAnalyzer::new`: collects the characters and reads the first one;
`chars[0]` panics (`none`) when the input is empty. -/
def analyzer_new (str : String) : Option EsJsonAnalyzer :=
  let chars := str.toList
  match h : chars with
  | [] => none
  | c :: _ =>
    some { position := 0, character := c, length := chars.length, json := chars }

/-- `goto_next_char`: advance the cursor; the position is incremented
unconditionally, the cached character only while still in range.  Returns
the new state and whether the cursor is still in range. -/
def goto_next_char (st : EsJsonAnalyzer) : EsJsonAnalyzer × Bool :=
  let p := st.position + 1
  if p < st.length then
    ({ st with position := p, character := st.json.getD p st.character }, true)
  else
    ({ st with position := p }, false)

/-- Loop body of `count_prev_char`, scanning downward from `prev_pos`.
Out-of-range indexing and `usize` underflow of `prev_pos -= 1` are panics
(`none`). -/
def cpc_loop (js : List Char) (prev_char : Char) : Nat → Nat → Option Nat
  | prev_pos, char_count =>
    match js.get? prev_pos, prev_pos with
    | none, _ => none
    | some c, 0 =>
      if c = prev_char then none else some char_count
    | some c, pp + 1 =>
      if c = prev_char then
        if pp = 0 then some (char_count + 1)
        else cpc_loop js prev_char pp (char_count + 1)
      else some char_count

/-- `count_prev_char`: the number of consecutive occurrences of `prev_char`
immediately before the current character.  Starting at `position = 0`
underflows `self.position - 1` (panic). -/
def count_prev_char (st : EsJsonAnalyzer) (prev_char : Char) : Option Nat :=
  if st.position = 0 then none
  else cpc_loop st.json prev_char (st.position - 1) 0

/-- The whitespace set `SPACE_CHARS` of `skip_space`. -/
def SPACE_CHARS : List Char := [' ', '\t', '\n', '\r']

/-- Loop of `skip_space`, driven by a gas counter so that the definition is
structurally recursive (and hence evaluates inside the kernel).  Each
iteration that continues strictly advances the cursor, so the gas supplied
by `skip_space` is never exhausted. -/
def skip_space_go : Nat → EsJsonAnalyzer → EsJsonAnalyzer
  | 0, st => st
  | gas + 1, st =>
    if SPACE_CHARS.contains st.character then
      match goto_next_char st with
      | (st', true) => skip_space_go gas st'
      | (st', false) => st'
    else st

/-- `skip_space`: advance while the current character is whitespace (the
skip count returned by the source is ignored by all its callers and is
dropped here). -/
def skip_space (st : EsJsonAnalyzer) : EsJsonAnalyzer :=
  skip_space_go (st.length - st.position + 1) st

/-- The stop set `STOP_CHARS` of `read_json_literal`. -/
def STOP_CHARS : List Char := [' ', '\t', '\r', '\n', ',', ']', rbraceChar]

/-- Loop of `read_json_literal` (gas-driven for the same reason as
`skip_space_go`; the gas supplied by `read_json_literal` is never
exhausted). -/
def read_json_literal_go : Nat → EsJsonAnalyzer → List Char →
    List Char × EsJsonAnalyzer
  | 0, st, literal => (literal, st)
  | gas + 1, st, literal =>
    if STOP_CHARS.contains st.character then (literal, st)
    else
      let literal' := literal ++ [st.character]
      match goto_next_char st with
      | (st', true) => read_json_literal_go gas st' literal'
      | (st', false) => (literal', st')

/-- `read_json_literal`: consume characters until a stop character or the
end of the input. -/
def read_json_literal (st : EsJsonAnalyzer) (literal : List Char) :
    List Char × EsJsonAnalyzer :=
  read_json_literal_go (st.length - st.position + 1) st literal

/-- Scan loop of `read_json_string` (gas-driven for the same reason as
`skip_space_go`; the gas supplied by `read_json_string` is never
exhausted): push characters until an unescaped double quote (whose
preceding consecutive-backslash count is even) is pushed, then step past
it. -/
def rjs_scan : Nat → EsJsonAnalyzer → List Char →
    Option (List Char × EsJsonAnalyzer)
  | 0, st, string => some (string, st)
  | gas + 1, st, string =>
    match goto_next_char st with
    | (st', false) => some (string, st')
    | (st', true) =>
      let string' := string ++ [st'.character]
      if st'.character = quoteChar then
        match count_prev_char st' backslashChar with
        | none => none
        | some k =>
          if k % 2 = 0 then some (string', (goto_next_char st').1)
          else rjs_scan gas st' string'
      else rjs_scan gas st' string'

/-- `read_json_string`: asserts the current character is a double quote
(panic otherwise), then scans to an unescaped closing quote.  Both quotes
are kept in the result. -/
def read_json_string (st : EsJsonAnalyzer) : Option (List Char × EsJsonAnalyzer) :=
  if st.character = quoteChar then
    rjs_scan (st.length - st.position + 1) st [st.character]
  else none

/-- Loop of `read_json_array`: each iteration asserts progress
(`assert_ne!(position, last_pos)`, panic on failure), skips whitespace,
consumes a lenient `,`, stops at `]`, and otherwise reads an element.  The
element reader `rv` (`read_json_value` at the enclosing fuel) is passed in
as an argument so that the recursion stays non-mutual. -/
def read_json_array_loop (rv : EsJsonAnalyzer → PRes (EsJson × EsJsonAnalyzer)) :
    Nat → EsJsonAnalyzer → List EsJson → Nat → PRes (List EsJson × EsJsonAnalyzer)
  | 0, _, _, _ => .fuelOut
  | f + 1, st, ary, last_pos =>
    if st.position = last_pos then .panic
    else
      let lp := st.position
      let st1 := skip_space st
      if st1.character = ',' then
        read_json_array_loop rv f (goto_next_char st1).1 ary lp
      else if st1.character = ']' then
        .ok (ary, (goto_next_char st1).1)
      else
        (rv st1).bind fun (v, st2) =>
          read_json_array_loop rv f st2 (ary ++ [v]) lp

/-- Loop of `read_json_object`: mirror of the array loop with `}` as the
terminator and key/value pairs (read by `rkv`) as elements. -/
def read_json_object_loop
    (rkv : EsJsonAnalyzer → PRes ((String × EsJson) × EsJsonAnalyzer)) :
    Nat → EsJsonAnalyzer → List (String × EsJson) → Nat →
      PRes (List (String × EsJson) × EsJsonAnalyzer)
  | 0, _, _, _ => .fuelOut
  | f + 1, st, obj, last_pos =>
    if st.position = last_pos then .panic
    else
      let lp := st.position
      let st1 := skip_space st
      if st1.character = ',' then
        read_json_object_loop rkv f (goto_next_char st1).1 obj lp
      else if st1.character = rbraceChar then
        .ok (obj, (goto_next_char st1).1)
      else
        (rkv st1).bind fun (kv, st2) =>
          read_json_object_loop rkv f st2 (obj ++ [kv]) lp

/-- `read_json_key_value`: skip whitespace, read the key (must start with a
double quote: the source's `assert_eq!` and the string reader's own
assertion are both modelled by the panic on a missing quote), require `:`,
skip whitespace, read the value (with `rv`). -/
def read_json_key_value (rv : EsJsonAnalyzer → PRes (EsJson × EsJsonAnalyzer))
    (st : EsJsonAnalyzer) : PRes ((String × EsJson) × EsJsonAnalyzer) :=
  let st1 := skip_space st
  match read_json_string st1 with
  | none => .panic
  | some (key, st2) =>
    let st3 := skip_space st2
    if st3.character = ':' then
      let st4 := skip_space (goto_next_char st3).1
      (rv st4).bind fun (v, st5) =>
        .ok ((String.mk key, v), st5)
    else .panic

/-- `read_json_value`: dispatch on the current character (string, object,
array, otherwise literal).  One unit of fuel is spent per nesting level;
the loops additionally spend their own fuel per iteration. -/
def read_json_value : Nat → EsJsonAnalyzer → PRes (EsJson × EsJsonAnalyzer)
  | 0, _ => .fuelOut
  | f + 1, st =>
    if st.character = quoteChar then
      match read_json_string st with
      | none => .panic
      | some (s, st') => .ok (.String (String.mk s), st')
    else if st.character = lbraceChar then
      (read_json_object_loop (read_json_key_value (read_json_value f)) f
          (goto_next_char st).1 [] 0).bind
        fun (obj, st') => .ok (.Object obj, st')
    else if st.character = '[' then
      (read_json_array_loop (read_json_value f) f
          (goto_next_char st).1 [] 0).bind
        fun (ary, st') => .ok (.Array ary, st')
    else
      let (s, st') := read_json_literal st []
      .ok (.String (String.mk s), st')

/-- `read_json_array`: asserts `[` (panic otherwise), then loops. -/
def read_json_array (fuel : Nat) (st : EsJsonAnalyzer) :
    PRes (List EsJson × EsJsonAnalyzer) :=
  match fuel with
  | 0 => .fuelOut
  | f + 1 =>
    if st.character = '[' then
      read_json_array_loop (read_json_value f) f (goto_next_char st).1 [] 0
    else .panic

/-- `read_json_object`: asserts `{` (panic otherwise), then loops. -/
def read_json_object (fuel : Nat) (st : EsJsonAnalyzer) :
    PRes (List (String × EsJson) × EsJsonAnalyzer) :=
  match fuel with
  | 0 => .fuelOut
  | f + 1 =>
    if st.character = lbraceChar then
      read_json_object_loop (read_json_key_value (read_json_value f)) f
        (goto_next_char st).1 [] 0
    else .panic

/-- `from_json`: build an analyzer (panics on the empty string, since
`chars[0]` is indexed unconditionally) and read one value.  The fuel
`3 * length + 8` is sufficient for every well-formed input (proved below);
on malformed input the source can loop forever, which the model reports
as `fuelOut`. -/
def from_json (json : String) : PRes EsJson :=
  match analyzer_new json with
  | none => .panic
  | some st => (read_json_value (3 * st.length + 8) st).bind fun (v, _) => .ok v

end EsJsonAnalyzer

/-- `Vec<String>::join(",")` from `to_json`. -/
def join_comma : List String → String
  | [] => ""
  | [x] => x
  | x :: xs => x ++ "," ++ join_comma xs

mutual

/-- `EsJsonAnalyzer::to_json`: arrays are comma-joined in brackets, objects
comma-join `key:value` (keys kept verbatim, including quotes), strings are
emitted verbatim. -/
def to_json : EsJson → String
  | .Array ary => "[" ++ join_comma (to_json_list ary) ++ "]"
  | .Object obj =>
      String.singleton lbraceChar ++ join_comma (to_json_fields obj) ++
        String.singleton rbraceChar
  | .String str => str

/-- `ary.iter().map(|v| Self::to_json(v))` from `to_json`. -/
def to_json_list : List EsJson → List String
  | [] => []
  | v :: rest => to_json v :: to_json_list rest

/-- `obj.iter().map(|(k, v)| format!("{}:{}", k, Self::to_json(v)))` from
`to_json`. -/
def to_json_fields : List (String × EsJson) → List String
  | [] => []
  | (k, v) :: rest => (k ++ ":" ++ to_json v) :: to_json_fields rest

end

/-- `EsJson::get_array`. -/
def get_array : EsJson → Except String (List EsJson)
  | .Array arr => .ok arr
  | _ => .error "invalid json"

/-- `EsJson::get_object`. -/
def get_object : EsJson → Except String (List (String × EsJson))
  | .Object obj => .ok obj
  | _ => .error "invalid json"

/-- `EsJson::get_string`. -/
def get_string : EsJson → Except String String
  | .String s => .ok s
  | _ => .error "invalid json"

/-- `EsJson::find_json`: linear scan of an object's stored (quoted) keys. -/
def find_json (j : EsJson) (key : String) : Except String EsJson :=
  match get_object j with
  | .error e => .error e
  | .ok obj =>
    match obj.find? (fun i => i.1 == key) with
    | some p => .ok p.2
    | none => .error "invalid json"

/-- `EsJson::get_hits`: `find("\"hits\"") → find("\"hits\"") → as_array`. -/
def get_hits (j : EsJson) : Except String (List EsJson) :=
  match find_json j "\"hits\"" with
  | .error e => .error e
  | .ok h =>
    match find_json h "\"hits\"" with
    | .error e => .error e
    | .ok h2 => get_array h2

/-- The numeric value of a digit run (`none` when empty or when any
character is not an ASCII digit); helper for the model of
`str::parse::<i64>()`. -/
def digits_val (cs : List Char) : Option Nat :=
  match cs with
  | [] => none
  | _ =>
    cs.foldl
      (fun acc c =>
        match acc with
        | none => none
        | some a => if c.isDigit then some (10 * a + (c.toNat - 48)) else none)
      (some 0)

/-- Model of Rust `str::parse::<i64>()`: optional sign, decimal digits
only, and an `i64` range check. -/
def parse_i64 (s : String) : Option Int :=
  let cs := s.toList
  let signDigits : Int × List Char :=
    match cs with
    | '+' :: rest => (1, rest)
    | '-' :: rest => (-1, rest)
    | _ => (1, cs)
  match digits_val signDigits.2 with
  | none => none
  | some n =>
    let v : Int := signDigits.1 * n
    if -(2 ^ 63) ≤ v ∧ v < 2 ^ 63 then some v else none

/-! ## The client (`impl Client`)

The HTTP transport is abstracted as an oracle giving, for each request in
issue order, either the body of a 200 response (`Except.ok`) or the error
the source's `post` would return (`Except.error`: a non-200 status or a
transport failure).  The model additionally records every request sent,
both with the exact body string the source would build and with its
structured ingredients, so that claims about the requests can be stated. -/

/-- `const MAX_FROM : i64 = 2000`. -/
def MAX_FROM : Int := 2000

/-- `const MAX_SIZE : i64 = 3000`. -/
def MAX_SIZE : Int := 3000

/-- A recorded request: either a `POST <index>/_search` (with the body
string and the arguments of `Client::query` that built it) or a
`POST <index>/_count` (with the body string and the query fragment). -/
inductive Req where
  | searchReq (index body queryFrag sort : String) (asc : Bool)
      (source : Option (List String)) (fromV sizeV : Int) : Req
  | countReq (index body queryFrag : String) : Req
deriving DecidableEq, Repr

/-- Transport state of a modelled run: the number of requests sent so far
(indexing the oracle) and the request log. -/
structure St where
  idx : Nat
  log : List Req
deriving DecidableEq, Repr

/-- The initial transport state. -/
def St.init : St := ⟨0, []⟩

/-- A transport oracle: the response to the `n`-th request. -/
abbrev Oracle := Nat → Except String String

/-- `Client::post`: send one request, consuming the next oracle response. -/
def post (o : Oracle) (st : St) (r : Req) : Except String String × St :=
  (o st.idx, ⟨st.idx + 1, st.log ++ [r]⟩)

/-- Sequencing of stateful fallible steps (the model of `?` together with
panic and fuel propagation, threading the transport state). -/
def PResSt.bind {α β : Type} : PRes α × St → (α → St → PRes β × St) → PRes β × St
  | (.ok a, st), f => f a st
  | (.fuelOut, st), _ => (.fuelOut, st)
  | (.panic, st), _ => (.panic, st)
  | (.err e, st), _ => (.err e, st)

/-- Lift a pure `Result` into a stateful step. -/
def ofExcept {α : Type} (r : Except String α) (st : St) : PRes α × St :=
  match r with
  | .ok a => (.ok a, st)
  | .error e => (.err e, st)

/-- Lift an `Option` whose `None` is an `unwrap` panic into a stateful
step. -/
def ofOptionPanic {α : Type} (r : Option α) (st : St) : PRes α × St :=
  match r with
  | some a => (.ok a, st)
  | none => (.panic, st)

/-- `Client::build_range_query`:
`{"bool":{"must":<query>,"filter":{"range":{"<sort>":{"gte":<start>,"lte":<end>}}}}}`. -/
def build_range_query (query sort : String) (startV endV : Int) : String :=
  "\x7b\"bool\":\x7b\"must\":" ++ query ++ ",\"filter\":\x7b\"range\":\x7b\"" ++
    sort ++ "\":\x7b\"gte\":" ++ toString startV ++ ",\"lte\":" ++ toString endV ++
    "\x7d\x7d\x7d\x7d\x7d"

/-- `Client::build_cmp_query`:
`{"bool":{"must":<query>,"filter":{"range":{"<sort>":{"<cmp>":<value>}}}}}`. -/
def build_cmp_query (query sort cmp : String) (value : Int) : String :=
  "\x7b\"bool\":\x7b\"must\":" ++ query ++ ",\"filter\":\x7b\"range\":\x7b\"" ++
    sort ++ "\":\x7b\"" ++ cmp ++ "\":" ++ toString value ++
    "\x7d\x7d\x7d\x7d\x7d"

/-- The `_search` body built inside `Client::query` (the `query_builder`
string, including its trailing `" }"`). -/
def build_search_body (query : String) (source : Option (List String))
    (sort : String) (asc : Bool) (fromV sizeV : Int) : String :=
  "\x7b" ++ ("\"query\":" ++ query ++ ",") ++
    ("\"sort\":\x7b\"" ++ sort ++ "\":\"" ++ (if asc then "asc" else "desc") ++
      "\"\x7d,") ++
    (match source with
     | some src =>
       "\"_source\": [" ++
         String.intercalate "," (src.map (fun s => "\"" ++ s ++ "\"")) ++ "],"
     | none => "") ++
    ("\"from\":" ++ toString fromV ++ ",") ++
    ("\"size\":" ++ toString sizeV ++ " \x7d")

/-- `Client::query`: post the search body to `<index>/_search` and parse
the response (named `query_es` here because the `search` parameter `query`
shadows the method name). -/
def query_es (o : Oracle) (st : St) (index query : String)
    (source : Option (List String)) (sort : String) (asc : Bool)
    (fromV sizeV : Int) : PRes EsJson × St :=
  let body := build_search_body query source sort asc fromV sizeV
  match post o st (.searchReq index body query sort asc source fromV sizeV) with
  | (.error e, st1) => (.err e, st1)
  | (.ok resp, st1) => (EsJsonAnalyzer.from_json resp, st1)

/-- `Client::count`: post `{"query": <query>}` to `<index>/_count`, parse
the response and read the `count` field; a non-integer count is an `Err`
(`Parse error: ...`), modelled with a fixed message. -/
def count (o : Oracle) (st : St) (index query : String) : PRes Int × St :=
  let body := "\x7b\"query\": " ++ query ++ "\x7d"
  match post o st (.countReq index body query) with
  | (.error e, st1) => (.err e, st1)
  | (.ok resp, st1) =>
    PResSt.bind (EsJsonAnalyzer.from_json resp, st1) fun j st2 =>
    PResSt.bind (ofExcept (find_json j "\"count\"") st2) fun v st3 =>
    PResSt.bind (ofExcept (get_string v) st3) fun s st4 =>
    match parse_i64 s with
    | some c => (.ok c, st4)
    | none => (.err "Parse error", st4)

/-- Loop of `Client::find_new_from`, with the `count` primitive abstracted
as `cnt` (in `search` it is instantiated with `count` against the
transport oracle).  One unit of fuel is spent per iteration; the fuel
supplied by `find_new_from` is proved sufficient below. -/
def find_new_from_loop (cnt : String → St → PRes Int × St)
    (query sort : String) (sort_start sort_end fromV : Int) :
    Nat → Int → Int → St → PRes (Int × Int) × St
  | 0, _, _, st => (.fuelOut, st)
  | f + 1, new_start, new_end, st =>
    let sort_min := min new_start new_end
    let sort_abs : Int := ((new_end - new_start).natAbs : Int)
    if sort_abs ≤ 1 then (.ok (sort_min, sort_abs), st)
    else
      let sort_mid := sort_min + sort_abs / 2
      let mid_query :=
        if sort_start < sort_end then build_range_query query sort sort_start sort_mid
        else build_range_query query sort sort_mid sort_start
      PResSt.bind (cnt mid_query st) fun mid_count st1 =>
      let new_from := fromV - mid_count
      if new_from < 0 then
        find_new_from_loop cnt query sort sort_start sort_end fromV f new_start sort_mid st1
      else if new_from ≤ MAX_FROM then (.ok (sort_mid, new_from), st1)
      else
        find_new_from_loop cnt query sort sort_start sort_end fromV f sort_mid new_end st1

/-- `Client::find_new_from`: binary search for a sort boundary whose
"before" count brings the residual offset under `MAX_FROM`. -/
def find_new_from (cnt : String → St → PRes Int × St) (query sort : String)
    (sort_start sort_end fromV : Int) (st : St) : PRes (Int × Int) × St :=
  find_new_from_loop cnt query sort sort_start sort_end fromV
    ((sort_end - sort_start).natAbs + 1) sort_start sort_end st

/-- The arithmetic of the reversal branch of `search` (lines 149-152):
`from2 = total - from - size`; `size2 = size + from2` when `from2 < 0`,
else `size`; result `(from2.max(0), size2.max(0))`. -/
def reverse_adjust (total fromV sizeV : Int) : Int × Int :=
  let from2 := total - fromV - sizeV
  let size2 := if from2 < 0 then sizeV + from2 else sizeV
  (max from2 0, max size2 0)

/-- The normalization of the `query` parameter in `search` (line 134):
an empty query becomes `{"match_all":{}}`. -/
def norm_query (query : String) : String :=
  if query = "" then "\x7b\"match_all\":\x7b\x7d\x7d" else query

/-- One extremum probe of Phase B (lines 163-174 of `search`): query the
single smallest- (`ascDir = true`) or largest-sorted (`ascDir = false`)
hit of `query` and parse its `_source.<sort>` as `i64` (the source does
`.parse::<i64>().unwrap()`, so an unparseable value panics); `ok none`
means no hit, which makes `search` return the empty list. -/
def extremum_sort (o : Oracle) (st : St) (index query sort : String)
    (ascDir : Bool) : PRes (Option Int) × St :=
  PResSt.bind (query_es o st index query (some [sort]) sort ascDir 0 1) fun batch st1 =>
  PResSt.bind (ofExcept (get_hits batch) st1) fun hits st2 =>
  match hits.getLast? with
  | none => (.ok none, st2)
  | some item =>
    PResSt.bind (ofExcept (find_json item "\"_source\"")  st2) fun src st3 =>
    PResSt.bind (ofExcept (find_json src ("\"" ++ sort ++ "\"")) st3) fun v st4 =>
    PResSt.bind (ofExcept (get_string v) st4) fun s st5 =>
    PResSt.bind (ofOptionPanic (parse_i64 s) st5) fun n st6 =>
    (.ok (some n), st6)

/-- Phase B of `search` (lines 159-184): when the (possibly reversed)
`from` still exceeds `MAX_FROM`, probe both extrema and binary-search a
boundary; yields `none` for "return the empty list now", or the pair
`(new_query, new_from)` used by the first batch. -/
def phase_b (o : Oracle) (index query sort : String) (asc : Bool)
    (fromV : Int) (st : St) : PRes (Option (String × Int)) × St :=
  if MAX_FROM < fromV then
    PResSt.bind (extremum_sort o st index query sort true) fun minv st1 =>
    match minv with
    | none => (.ok none, st1)
    | some sort_min =>
      PResSt.bind (extremum_sort o st1 index query sort false) fun maxv st2 =>
      match maxv with
      | none => (.ok none, st2)
      | some sort_max =>
        if asc then
          PResSt.bind
            (find_new_from (fun q s => count o s index q) query sort sort_min
              sort_max fromV st2) fun nf st3 =>
          (.ok (some (build_cmp_query query sort "gt" nf.1, nf.2)), st3)
        else
          PResSt.bind
            (find_new_from (fun q s => count o s index q) query sort sort_max
              sort_min fromV st2) fun nf st3 =>
          (.ok (some (build_cmp_query query sort "lt" nf.1, nf.2)), st3)
  else (.ok (some (query, fromV)), st)

/-- The `while remain_size > 0` loop of `search` (lines 196-212): read the
last hit's `sort[0]` (`.first().unwrap()` and `.parse::<i64>().unwrap()`
panic when absent or unparseable), rewrap the *original* query with a
strict comparison on it, and fetch the next batch with `from = 0`.  One
unit of fuel per iteration; each iteration consumes at least one hit, so
the `size.toNat` fuel supplied by `search_rest` is never exhausted. -/
def batch_loop (o : Oracle) (index query : String)
    (source : Option (List String)) (sort : String) (asc : Bool) :
    Nat → Int → List EsJson → List String → St → PRes (List String) × St
  | 0, _, _, _, st => (.fuelOut, st)
  | f + 1, remain_size, hits, list, st =>
    if remain_size ≤ 0 then (.ok list, st)
    else
      PResSt.bind (ofOptionPanic hits.getLast? st) fun last_item st0 =>
      PResSt.bind (ofExcept (find_json last_item "\"sort\"") st0) fun sj st1 =>
      PResSt.bind (ofExcept (get_array sj) st1) fun arr st2 =>
      PResSt.bind (ofOptionPanic arr.head? st2) fun firstItem st3 =>
      PResSt.bind (ofExcept (get_string firstItem) st3) fun s st4 =>
      PResSt.bind (ofOptionPanic (parse_i64 s) st4) fun last_sort st5 =>
      let new_query :=
        if asc then build_cmp_query query sort "gt" last_sort
        else build_cmp_query query sort "lt" last_sort
      let retrieve_size := min remain_size MAX_SIZE
      PResSt.bind (query_es o st5 index new_query source sort asc 0 retrieve_size)
        fun batch st6 =>
      PResSt.bind (ofExcept (get_hits batch) st6) fun hits2 st7 =>
      if hits2.length = 0 then (.ok list, st7)
      else
        batch_loop o index query source sort asc f
          (remain_size - hits2.length) hits2 (list ++ hits2.map to_json) st7

/-- Phases B-D of `search` (everything after the Phase A adjustment):
binary-search collapse, first batch, cursored batching, and the final
un-reversal. -/
def search_rest (o : Oracle) (index query : String)
    (source : Option (List String)) (sort : String) (asc reverse : Bool)
    (fromV sizeV : Int) (st : St) : PRes (List String) × St :=
  PResSt.bind (phase_b o index query sort asc fromV st) fun nq st1 =>
  match nq with
  | none => (.ok [], st1)
  | some (new_query, new_from) =>
    let retrieve_size := min sizeV MAX_SIZE
    PResSt.bind (query_es o st1 index new_query source sort asc new_from retrieve_size)
      fun batch st2 =>
    PResSt.bind (ofExcept (get_hits batch) st2) fun hits st3 =>
    if hits.length = 0 then (.ok [], st3)
    else
      let list := hits.map to_json
      let remain_size := sizeV - hits.length
      PResSt.bind (batch_loop o index query source sort asc sizeV.toNat
          remain_size hits list st3) fun list2 st4 =>
      if reverse then (.ok list2.reverse, st4) else (.ok list2, st4)

/-- `Client::search` (lines 118-220): validation, Phase A tail reversal,
then `search_rest`.  The oracle `o` supplies the transport responses; the
returned `St` carries the full request log of the call. -/
def search (o : Oracle) (index query : String) (source : Option (List String))
    (sort : String) (asc : Bool) (fromV sizeV : Int) : PRes (List String) × St :=
  if index = "" then (.err "index can not be empty.", St.init)
  else if sort = "" then (.err "sort can not be empty.", St.init)
  else if fromV < 0 ∨ sizeV < 0 then
    (.err "from and size can not be negative.", St.init)
  else if sizeV = 0 then (.ok [], St.init)
  else
    let query := norm_query query
    if MAX_FROM < fromV then
      PResSt.bind (count o St.init index query) fun total st1 =>
      if total = 0 ∨ total < fromV then (.ok [], st1)
      else if total - fromV < fromV then
        match reverse_adjust total fromV sizeV with
        | (from2, size2) =>
          if size2 = 0 then (.ok [], st1)
          else search_rest o index query source sort (!asc) true from2 size2 st1
      else search_rest o index query source sort asc false fromV sizeV st1
    else search_rest o index query source sort asc false fromV sizeV St.init

/-! ## A grammar of well-formed JSON texts (for the round-trip claim)

`SJson` describes a standard well-formed JSON text together with the
whitespace it carries: string tokens (`jstr body`, rendering as
`"body"`), literal tokens (`jlit`), arrays and objects with standard
single-comma separators.  In `jarr`/`jobj`, `wsEnd` is the whitespace
before the closing bracket of an *empty* collection; for a non-empty
collection each element carries the whitespace before it (`w`) and after
it (`pw`), and fields additionally the whitespace around the colon
(`wa`, `wb`).  `renderS` is the described text, `stripS` the same text
with all inter-token whitespace removed, `toEs` the `EsJson` value the
walker is expected to produce, and `validS` well-formedness (whitespace
chunks are whitespace, string bodies are properly escaped, literals are
non-empty, free of stop characters and not starting like a string,
object or array). -/

mutual

/-- A well-formed JSON text with explicit whitespace. -/
inductive SJson where
  | jstr (body : List Char) : SJson
  | jlit (cs : List Char) : SJson
  | jarr (wsEnd : List Char) (elems : SElems) : SJson
  | jobj (wsEnd : List Char) (fields : SFields) : SJson

/-- The elements of a well-formed array. -/
inductive SElems where
  | nil : SElems
  | cons (w : List Char) (v : SJson) (pw : List Char) (rest : SElems) : SElems

/-- The fields of a well-formed object. -/
inductive SFields where
  | nil : SFields
  | cons (w : List Char) (key : List Char) (wa wb : List Char) (v : SJson)
      (pw : List Char) (rest : SFields) : SFields

end

mutual

/-- The text described by an `SJson`. -/
def renderS : SJson → List Char
  | .jstr body => quoteChar :: (body ++ [quoteChar])
  | .jlit cs => cs
  | .jarr wsEnd elems => '[' :: (renderElems wsEnd elems ++ [']'])
  | .jobj wsEnd fields =>
      lbraceChar :: (renderFields wsEnd fields ++ [rbraceChar])

/-- The text between the brackets of an array. -/
def renderElems : List Char → SElems → List Char
  | wsEnd, .nil => wsEnd
  | _, .cons w v pw rest => w ++ renderS v ++ pw ++ renderElemsTail rest

/-- The text of the remaining array elements, each preceded by its
comma. -/
def renderElemsTail : SElems → List Char
  | .nil => []
  | .cons w v pw rest => ',' :: (w ++ renderS v ++ pw ++ renderElemsTail rest)

/-- The text between the braces of an object. -/
def renderFields : List Char → SFields → List Char
  | wsEnd, .nil => wsEnd
  | _, .cons w key wa wb v pw rest =>
      w ++ (quoteChar :: (key ++ [quoteChar])) ++ wa ++ ':' :: wb ++
        renderS v ++ pw ++ renderFieldsTail rest

/-- The text of the remaining object fields, each preceded by its
comma. -/
def renderFieldsTail : SFields → List Char
  | .nil => []
  | .cons w key wa wb v pw rest =>
      ',' :: (w ++ (quoteChar :: (key ++ [quoteChar])) ++ wa ++ ':' :: wb ++
        renderS v ++ pw ++ renderFieldsTail rest)

end

mutual

/-- The same text with all inter-token whitespace removed. -/
def stripS : SJson → List Char
  | .jstr body => quoteChar :: (body ++ [quoteChar])
  | .jlit cs => cs
  | .jarr _ elems => '[' :: (stripElems elems ++ [']'])
  | .jobj _ fields => lbraceChar :: (stripFields fields ++ [rbraceChar])

/-- Whitespace-free text between the brackets of an array. -/
def stripElems : SElems → List Char
  | .nil => []
  | .cons _ v _ rest => stripS v ++ stripElemsTail rest

/-- Whitespace-free text of the remaining array elements. -/
def stripElemsTail : SElems → List Char
  | .nil => []
  | .cons _ v _ rest => ',' :: (stripS v ++ stripElemsTail rest)

/-- Whitespace-free text between the braces of an object. -/
def stripFields : SFields → List Char
  | .nil => []
  | .cons _ key _ _ v _ rest =>
      (quoteChar :: (key ++ [quoteChar])) ++ ':' :: (stripS v ++ stripFieldsTail rest)

/-- Whitespace-free text of the remaining object fields. -/
def stripFieldsTail : SFields → List Char
  | .nil => []
  | .cons _ key _ _ v _ rest =>
      ',' :: ((quoteChar :: (key ++ [quoteChar])) ++ ':' ::
        (stripS v ++ stripFieldsTail rest))

end

mutual

/-- The `EsJson` value the walker produces for this text. -/
def toEs : SJson → EsJson
  | .jstr body => .String (String.mk (quoteChar :: (body ++ [quoteChar])))
  | .jlit cs => .String (String.mk cs)
  | .jarr _ elems => .Array (toEsElems elems)
  | .jobj _ fields => .Object (toEsFields fields)

/-- The `EsJson` values of the array elements. -/
def toEsElems : SElems → List EsJson
  | .nil => []
  | .cons _ v _ rest => toEs v :: toEsElems rest

/-- The `EsJson` pairs of the object fields (keys keep their quotes). -/
def toEsFields : SFields → List (String × EsJson)
  | .nil => []
  | .cons _ key _ _ v _ rest =>
      (String.mk (quoteChar :: (key ++ [quoteChar])), toEs v) :: toEsFields rest

end

/-- A whitespace chunk. -/
def wsOk (w : List Char) : Bool :=
  w.all (fun c => EsJsonAnalyzer.SPACE_CHARS.contains c)

/-- Escape discipline of a string-token body, tracking the current run of
backslashes: every double quote inside the body is odd-escaped, and the
body does not end in the middle of an escape (so the closing quote is
even-escaped). -/
def strBodyOkAux : List Char → Nat → Bool
  | [], run => run % 2 = 0
  | c :: rest, run =>
    if c = quoteChar then decide (run % 2 = 1) && strBodyOkAux rest 0
    else if c = backslashChar then strBodyOkAux rest (run + 1)
    else strBodyOkAux rest 0

/-- A well-formed string-token body. -/
def strBodyOk (body : List Char) : Bool := strBodyOkAux body 0

/-- A well-formed literal token: non-empty, free of stop characters, and
not starting like a string, object or array. -/
def litOk (cs : List Char) : Bool :=
  match cs with
  | [] => false
  | c :: _ =>
    cs.all (fun c2 => ¬EsJsonAnalyzer.STOP_CHARS.contains c2) &&
      (¬(c = quoteChar) && ¬(c = lbraceChar) && ¬(c = '['))

mutual

/-- Well-formedness of a spaced JSON text. -/
def validS : SJson → Bool
  | .jstr body => strBodyOk body
  | .jlit cs => litOk cs
  | .jarr wsEnd elems => wsOk wsEnd && validElems elems
  | .jobj wsEnd fields => wsOk wsEnd && validFields fields

/-- Well-formedness of array elements. -/
def validElems : SElems → Bool
  | .nil => true
  | .cons w v pw rest => wsOk w && validS v && wsOk pw && validElems rest

/-- Well-formedness of object fields. -/
def validFields : SFields → Bool
  | .nil => true
  | .cons w key wa wb v pw rest =>
      wsOk w && strBodyOk key && wsOk wa && wsOk wb && validS v && wsOk pw &&
        validFields rest

end

/-- Loop iterations needed for the remaining array elements (from just
after an element). -/
def iterAT : SElems → Nat
  | .nil => 1
  | .cons _ _ _ rest => 2 + iterAT rest

/-- Loop iterations needed to parse an array's contents (from just after
`[`, including the closing-bracket iteration). -/
def iterA : SElems → Nat
  | .nil => 1
  | .cons _ _ _ rest => 1 + iterAT rest

/-- Loop iterations needed for the remaining object fields. -/
def iterOT : SFields → Nat
  | .nil => 1
  | .cons _ _ _ _ _ _ rest => 2 + iterOT rest

/-- Loop iterations needed to parse an object's contents. -/
def iterO : SFields → Nat
  | .nil => 1
  | .cons _ _ _ _ _ _ rest => 1 + iterOT rest

mutual

/-- Fuel needed by `read_json_value` on this text: one unit per nesting
level, and enough loop iterations at each level. -/
def fcost : SJson → Nat
  | .jstr _ => 1
  | .jlit _ => 1
  | .jarr _ elems => 1 + max (iterA elems) (maxcA elems)
  | .jobj _ fields => 1 + max (iterO fields) (maxcO fields)

/-- Largest fuel needed by any array element. -/
def maxcA : SElems → Nat
  | .nil => 0
  | .cons _ v _ rest => max (fcost v) (maxcA rest)

/-- Largest fuel needed by any object field value. -/
def maxcO : SFields → Nat
  | .nil => 0
  | .cons _ _ _ _ v _ rest => max (fcost v) (maxcO rest)

end

/-- The cursor-state invariant tying an analyzer state to the input `js`
and a position `k`: the cached character is accurate while the cursor is
in range. -/
def okSt (js : List Char) (k : Nat) (st : EsJsonAnalyzer) : Prop :=
  st.json = js ∧ st.length = js.length ∧ st.position = k ∧
    (k < js.length → st.character = js.getD k ' ')

/-- The guard a literal token needs from its right context: the text after
it must start with a stop character (or be empty), since the literal
reader consumes greedily. -/
def litSafe : SJson → List Char → Prop
  | .jlit _, post =>
      post = [] ∨ ∃ c rest, post = c :: rest ∧ EsJsonAnalyzer.STOP_CHARS.contains c
  | _, _ => True

/-- The canonical in-range analyzer state at position `k` of `js`. -/
def stat (js : List Char) (k : Nat) : EsJsonAnalyzer :=
  ⟨js, js.length, k, js.getD k ' '⟩

/-- The number of consecutive backslash characters immediately before
index `q` of `js` (the mathematical counterpart of `count_prev_char`). -/
def backslash_run (js : List Char) : Nat → Nat
  | 0 => 0
  | q + 1 =>
    if js.get? q = some backslashChar then backslash_run js q + 1 else 0

/-- Index `q` terminates a JSON string scan: it holds a double quote whose
count of immediately preceding consecutive backslashes is even. -/
def term_quote (js : List Char) (q : Nat) : Prop :=
  js.get? q = some quoteChar ∧ backslash_run js q % 2 = 0

instance (js : List Char) (q : Nat) : Decidable (term_quote js q) := by
  unfold term_quote
  infer_instance

/-- The per-request invariant of spec property 6 ("no request exceeds
limits"): every `_search` request has `from ≤ MAX_FROM` and
`size ≤ MAX_SIZE` (a `_count` request has no `from`/`size`). -/
def req_bounded : Req → Prop
  | .searchReq _ _ _ _ _ _ f s => f ≤ MAX_FROM ∧ s ≤ MAX_SIZE
  | .countReq _ _ _ => True

/-- The shape of every request issued by the Phase C cursor loop on the
original (normalized) user query fragment `query`: a single
`build_cmp_query` wrapping of `query` with the direction's comparator,
sent with `from = 0`. -/
def cursor_req_shape (index query sort : String) (asc : Bool)
    (source : Option (List String)) (r : Req) : Prop :=
  ∃ (v sz : Int),
    r = Req.searchReq index
          (build_search_body (build_cmp_query query sort (if asc then "gt" else "lt") v)
            source sort asc 0 sz)
          (build_cmp_query query sort (if asc then "gt" else "lt") v)
          sort asc source 0 sz

/-! ## Claims -/

/-- **C10.** If the transport returns an HTTP-200 response whose body is
the empty string, `search` panics rather than returning `Err`:
`EsJsonAnalyzer::new` unconditionally indexes `chars[0]`, so `from_json`
is partial on the empty string (`PRes.panic`), and the panic is reachable
from the public `search` interface (here: the very first `_search`
response of a plain `from = 0` call). -/
theorem c10_empty_body_search_panics :
    EsJsonAnalyzer.from_json "" = PRes.panic ∧
    (search (fun _ => Except.ok "") "i" "" none "id" true 0 5).1 = PRes.panic := by
  constructor
  · rfl
  · rfl

/-- **C7.** Contrary to the spec's error table, an unparseable sort value
does not surface as `Err`: `search` reads the Phase B extremum's
`_source.<sort>` with `.parse::<i64>().unwrap()`, so a non-integer value
(here `12.5`, with a well-formed response otherwise) panics.  The run:
`from = 3000 > MAX_FROM` and a counted total of `9999` reach Phase B; the
first extremum hit carries `_source.id = 12.5`; the call panics instead of
returning `Err`. -/
theorem c7_unparseable_sort_value_panics :
    (search
      (fun n =>
        if n = 0 then Except.ok "\x7b\"count\":9999\x7d"
        else Except.ok
          "\x7b\"hits\":\x7b\"hits\":[\x7b\"_source\":\x7b\"id\":12.5\x7d\x7d]\x7d\x7d")
      "i" "" none "id" true 3000 1).1 = PRes.panic := by
  rfl

/-- **C5 (counterexample).** A descending binary search (initial interval
`sort_start = 10 > sort_end = 0`, `from = 5000`, every count reply `0`)
collapses through `new_start = 5, 2, 1` to the interval
`(new_start, new_end) = (1, 0)` and then returns `(0, 1)`: the boundary
returned is `min(new_start, new_end) = new_end = 0`, not `new_start = 1`
as the claim states (which would be the result `(1, 1)`). -/
theorem c5_counterexample :
    (find_new_from
        (fun q s => count (fun _ => Except.ok "\x7b\"count\":0\x7d") s "i" q)
        "\x7b\"match_all\":\x7b\x7d\x7d" "s" 10 0 5000 St.init).1
      = PRes.ok (0, 1) ∧
    (PRes.ok ((0 : Int), (1 : Int)) : PRes (Int × Int)) ≠ PRes.ok (1, 1) := by
  constructor
  · rfl
  · decide

/-- **C5 (amended).** When the binary-search interval has collapsed to
`|new_end - new_start| ≤ 1` at loop entry, `find_new_from` returns
`new_from = |new_end - new_start|` and `min(new_start, new_end)` as the
boundary used for the subsequent cursor query — which equals `new_start`
for ascending intervals (`new_start ≤ new_end`) but `new_end` for
descending ones. -/
theorem c5_collapse_returns_min (cnt : String → St → PRes Int × St)
    (query sort : String) (ss se fromV : Int) (f : Nat) (ns ne : Int) (st : St)
    (h : (ne - ns).natAbs ≤ 1) :
    find_new_from_loop cnt query sort ss se fromV (f + 1) ns ne st
      = (PRes.ok (min ns ne, ((ne - ns).natAbs : Int)), st) := by
  simp only [find_new_from_loop]
  rw [if_pos (by exact_mod_cast h)]

/-- Witness for `c5_collapse_returns_min` at the concrete collapsed
descending interval `(new_start, new_end) = (1, 0)`. -/
theorem c5_collapse_returns_min_witness :
    ((0 : Int) - 1).natAbs ≤ 1 ∧
    find_new_from_loop (fun _ s => (PRes.ok 0, s)) "q" "s" 1 0 5000 1 1 0 St.init
      = (PRes.ok (0, 1), St.init) := by
  refine ⟨by decide, ?_⟩
  exact c5_collapse_returns_min (fun _ s => (PRes.ok 0, s)) "q" "s" 1 0 5000 0
    1 0 St.init (by decide)

/-- `PResSt.bind` cannot produce `fuelOut` when neither side can. -/
theorem PResSt.bind_ne_fuelOut {α β : Type} (p : PRes α × St)
    (f : α → St → PRes β × St) (hp : p.1 ≠ PRes.fuelOut)
    (hf : ∀ a st, (f a st).1 ≠ PRes.fuelOut) :
    (PResSt.bind p f).1 ≠ PRes.fuelOut := by
  rcases p with ⟨r, st⟩
  cases r with
  | fuelOut => exact absurd rfl hp
  | panic => simp [PResSt.bind]
  | err e => simp [PResSt.bind]
  | ok a => exact hf a st

/-- The interval measure strictly decreases across every continuing
iteration of `find_new_from_loop`, so fuel `|new_end - new_start| + 1`
never runs out (for any oracle whose replies are themselves fuel-free). -/
theorem find_new_from_loop_ne_fuelOut (cnt : String → St → PRes Int × St)
    (query sort : String) (ss se fromV : Int)
    (hcnt : ∀ q s, (cnt q s).1 ≠ PRes.fuelOut) :
    ∀ (fuel : Nat) (ns ne : Int) (st : St), (ne - ns).natAbs < fuel →
      (find_new_from_loop cnt query sort ss se fromV fuel ns ne st).1
        ≠ PRes.fuelOut := by
  intro fuel
  induction fuel with
  | zero => intro ns ne st h; omega
  | succ f ih =>
    intro ns ne st h
    simp only [find_new_from_loop]
    split
    · simp
    · rename_i habs
      apply PResSt.bind_ne_fuelOut _ _ (hcnt _ _)
      intro mid_count st1
      split
      · exact ih ns (min ns ne + ((ne - ns).natAbs : Int) / 2) st1 (by omega)
      · split
        · simp
        · exact ih (min ns ne + ((ne - ns).natAbs : Int) / 2) ne st1 (by omega)

/-- **C6.** `find_new_from` terminates for every input — all `sort_start`,
`sort_end`, `from` and every possible sequence of count replies (any
oracle `cnt` that itself returns): each iteration either exits or
strictly shrinks `|new_end - new_start|`, because the midpoint
`min + |new_end - new_start| / 2` lies strictly between the endpoints
whenever `|new_end - new_start| > 1`.  In the model, the fuel
`|sort_end - sort_start| + 1` supplied by `find_new_from` is therefore
never exhausted. -/
theorem c6_find_new_from_terminates (cnt : String → St → PRes Int × St)
    (query sort : String) (ss se fromV : Int) (st : St)
    (hcnt : ∀ q s, (cnt q s).1 ≠ PRes.fuelOut) :
    (find_new_from cnt query sort ss se fromV st).1 ≠ PRes.fuelOut :=
  find_new_from_loop_ne_fuelOut cnt query sort ss se fromV hcnt _ ss se st
    (by omega)

/-- Witness for `c6_find_new_from_terminates`: the concrete all-zero count
oracle on the interval `(10, 0)`. -/
theorem c6_find_new_from_terminates_witness :
    (∀ q s, ((fun (_ : String) (s : St) => (PRes.ok (0 : Int), s)) q s).1
      ≠ PRes.fuelOut) ∧
    (find_new_from (fun _ s => (PRes.ok (0 : Int), s)) "q" "s" 10 0 5000
      St.init).1 ≠ PRes.fuelOut := by
  refine ⟨fun q s => by simp, ?_⟩
  exact c6_find_new_from_terminates (fun _ s => (PRes.ok 0, s)) "q" "s" 10 0 5000
    St.init (fun q s => by simp)

/-- **C4.** For a call with `from > MAX_FROM` that proceeds past Phase A
(`0 ≤ from ≤ total`, `size ≥ 1`), the effective offset after Phase A is at
most `total / 2`: without reversal (`¬(total - from < from)`) the original
`from` is at most `total - from`, and with reversal it becomes
`(reverse_adjust total from size).1 = max(total - from - size, 0)`, which
is below `total / 2`. -/
theorem c4_phase_a_offset_at_most_half (total fromV sizeV : Int)
    (h0 : 0 ≤ fromV) (h1 : fromV ≤ total) (h2 : 1 ≤ sizeV)
    (h3 : MAX_FROM < fromV) :
    (if total - fromV < fromV then (reverse_adjust total fromV sizeV).1
     else fromV) ≤ total / 2 := by
  simp only [reverse_adjust, MAX_FROM] at *
  split
  · rw [max_def]
    split <;> omega
  · omega

/-- **C2.** For every call to `search` with `from > MAX_FROM` (and
arguments passing validation, so that the count is reached), if the
counted total satisfies `total = 0` or `from ≥ total`, then `search`
returns `Ok` with the empty list and performs no request after the count:
the final transport state is exactly the state after the count.  (For
`total = 0` and `from > total` this is the immediate early return of line
143-145; for `from = total` the reversal arithmetic yields `size = 0` and
returns empty at line 153-155, likewise without further requests.) -/
theorem c2_from_past_total_returns_empty (o : Oracle) (index query : String)
    (source : Option (List String)) (sort : String) (asc : Bool)
    (fromV sizeV total : Int)
    (hidx : index ≠ "") (hsort : sort ≠ "") (hsize : 0 < sizeV)
    (hfrom : MAX_FROM < fromV)
    (hcount : (count o St.init index (norm_query query)).1 = PRes.ok total)
    (htot : total = 0 ∨ total ≤ fromV) :
    search o index query source sort asc fromV sizeV
      = (PRes.ok [], (count o St.init index (norm_query query)).2) := by
  have hMF : MAX_FROM = (2000 : Int) := rfl
  rw [search]
  rw [if_neg hidx, if_neg hsort, if_neg (by omega), if_neg (by omega),
    if_pos hfrom]
  rcases hc : count o St.init index (norm_query query) with ⟨r, st1⟩
  rw [hc] at hcount
  simp only at hcount
  subst hcount
  simp only [PResSt.bind]
  rcases htot with h0 | hle
  · rw [if_pos (Or.inl h0)]
  · rcases lt_or_eq_of_le hle with hlt | heq
    · rw [if_pos (Or.inr hlt)]
    · subst heq
      rw [if_neg (by omega)]
      rw [if_pos (by omega)]
      simp only [reverse_adjust]
      rw [if_pos (by omega : total - total - sizeV < 0)]
      rw [if_pos (by omega : max (sizeV + (total - total - sizeV)) 0 = 0)]

/-- Witness for `c2_from_past_total_returns_empty`: a concrete call with
`from = 2001` against a transport whose count response is
`{"count":0}`. -/
theorem c2_from_past_total_returns_empty_witness :
    (("i" : String) ≠ "" ∧ ("s" : String) ≠ "" ∧ (0 : Int) < 5 ∧
      MAX_FROM < (2001 : Int) ∧
      (count (fun _ => Except.ok "\x7b\"count\":0\x7d") St.init "i"
        (norm_query "")).1 = PRes.ok 0) ∧
    search (fun _ => Except.ok "\x7b\"count\":0\x7d") "i" "" none "s" true 2001 5
      = (PRes.ok [],
         (count (fun _ => Except.ok "\x7b\"count\":0\x7d") St.init "i"
           (norm_query "")).2) := by
  refine ⟨⟨by decide, by decide, by decide, by decide, by decide⟩, ?_⟩
  exact c2_from_past_total_returns_empty (fun _ => Except.ok "\x7b\"count\":0\x7d")
    "i" "" none "s" true 2001 5 0 (by decide) (by decide) (by decide) (by decide)
    (by decide) (Or.inl rfl)

/-- `ofExcept` does not touch the transport state. -/
theorem ofExcept_snd {α : Type} (r : Except String α) (st : St) :
    (ofExcept r st).2 = st := by cases r <;> rfl

/-- `ofOptionPanic` does not touch the transport state. -/
theorem ofOptionPanic_snd {α : Type} (r : Option α) (st : St) :
    (ofOptionPanic r st).2 = st := by cases r <;> rfl

/-- A bind whose continuation preserves the log preserves the log. -/
theorem bind_log_pres {α β : Type} (p : PRes α × St)
    (f : α → St → PRes β × St)
    (hf : ∀ a st, (f a st).2.log = st.log) :
    (PResSt.bind p f).2.log = p.2.log := by
  rcases p with ⟨pr, st⟩
  cases pr with
  | ok a => exact hf a st
  | fuelOut => rfl
  | panic => rfl
  | err e => rfl

/-- Generic membership step through `PResSt.bind`: a request in the final
log is either already in the log on the left or accounted for by the
continuation. -/
theorem mem_bind_log {α β : Type} {Q : Req → Prop} (p : PRes α × St)
    (f : α → St → PRes β × St) (r : Req)
    (hr : r ∈ (PResSt.bind p f).2.log)
    (hf : ∀ a st, r ∈ (f a st).2.log → r ∈ st.log ∨ Q r) :
    r ∈ p.2.log ∨ Q r := by
  rcases p with ⟨pr, st⟩
  cases pr with
  | ok a => exact hf a st hr
  | fuelOut => exact Or.inl hr
  | panic => exact Or.inl hr
  | err e => exact Or.inl hr

/-- `Client::query` logs exactly one `_search` request, carrying its
`from`/`size`/query arguments. -/
theorem query_es_log (o : Oracle) (st : St) (index q : String)
    (src : Option (List String)) (sort : String) (asc : Bool) (f sz : Int) :
    (query_es o st index q src sort asc f sz).2.log
      = st.log ++
        [Req.searchReq index (build_search_body q src sort asc f sz) q sort asc
          src f sz] := by
  cases h : o st.idx <;> simp [query_es, post, h]

/-- `Client::count` logs exactly one `_count` request. -/
theorem count_log (o : Oracle) (st : St) (index q : String) :
    (count o st index q).2.log
      = st.log ++
        [Req.countReq index ("\x7b\"query\": " ++ q ++ "\x7d") q] := by
  cases h : o st.idx with
  | error e => simp [count, post, h]
  | ok resp =>
    simp only [count, post, h]
    rw [bind_log_pres]
    intro j st2
    rw [bind_log_pres, ofExcept_snd]
    intro v st3
    rw [bind_log_pres, ofExcept_snd]
    intro s st4
    cases parse_i64 s <;> rfl

/-- `extremum_sort` logs exactly one `_search` request, with `from = 0`
and `size = 1`. -/
theorem extremum_sort_log (o : Oracle) (st : St) (index q sort : String)
    (dir : Bool) :
    (extremum_sort o st index q sort dir).2.log
      = st.log ++
        [Req.searchReq index
          (build_search_body q (some [sort]) sort dir 0 1) q sort dir
          (some [sort]) 0 1] := by
  unfold extremum_sort
  have hinner : ∀ (hits : List EsJson) (st2 : St),
      ((match hits.getLast? with
        | none => (PRes.ok none, st2)
        | some item =>
          PResSt.bind (ofExcept (find_json item "\"_source\"") st2) fun src st3 =>
          PResSt.bind (ofExcept (find_json src ("\"" ++ sort ++ "\"")) st3) fun v st4 =>
          PResSt.bind (ofExcept (get_string v) st4) fun s st5 =>
          PResSt.bind (ofOptionPanic (parse_i64 s) st5) fun n st6 =>
          (PRes.ok (some n), st6)) : PRes (Option Int) × St).2.log = st2.log := by
    intro hits st2
    cases hits.getLast? with
    | none => rfl
    | some item =>
      rw [bind_log_pres, ofExcept_snd]
      intro a s3
      rw [bind_log_pres, ofExcept_snd]
      intro v s4
      rw [bind_log_pres, ofExcept_snd]
      intro x s5
      rw [bind_log_pres, ofOptionPanic_snd]
      intro n s6
      rfl
  rw [bind_log_pres, query_es_log]
  intro batch st1
  rw [bind_log_pres, ofExcept_snd]
  intro hits st2
  exact hinner hits st2

/-- Inversion of a successful `PResSt.bind`. -/
theorem bind_eq_ok {α β : Type} {p : PRes α × St} {f : α → St → PRes β × St}
    {b : β} {st' : St} (h : PResSt.bind p f = (PRes.ok b, st')) :
    ∃ a st1, p = (PRes.ok a, st1) ∧ f a st1 = (PRes.ok b, st') := by
  rcases p with ⟨pr, st⟩
  cases pr with
  | ok a => exact ⟨a, st, rfl, h⟩
  | fuelOut => simp [PResSt.bind] at h
  | panic => simp [PResSt.bind] at h
  | err e => simp [PResSt.bind] at h

/-- Every request logged by `find_new_from_loop` beyond the incoming log
is a `_count` request. -/
theorem find_new_from_loop_mem (cnt : String → St → PRes Int × St)
    (query sort : String) (ss se fromV : Int)
    (hcnt : ∀ q s r, r ∈ (cnt q s).2.log → r ∈ s.log ∨
      ∃ i b qq, r = Req.countReq i b qq) :
    ∀ (fuel : Nat) (ns ne : Int) (st : St) (r : Req),
      r ∈ (find_new_from_loop cnt query sort ss se fromV fuel ns ne st).2.log →
      r ∈ st.log ∨ ∃ i b qq, r = Req.countReq i b qq := by
  intro fuel
  induction fuel with
  | zero => intro ns ne st r hr; exact Or.inl hr
  | succ f ih =>
    intro ns ne st r hr
    simp only [find_new_from_loop] at hr
    split at hr
    · exact Or.inl hr
    · have h2 := @mem_bind_log _ _ (fun r => ∃ i b qq, r = Req.countReq i b qq)
        _ _ r hr ?_
      · rcases h2 with h2 | h2
        · exact hcnt _ _ r h2
        · exact Or.inr h2
      · intro c st1 hr1
        split at hr1
        · exact ih _ _ st1 r hr1
        · split at hr1
          · exact Or.inl hr1
          · exact ih _ _ st1 r hr1

/-- When the binary search returns `Ok`, the `new_from` it delivers is at
most `MAX_FROM` (the collapse branch returns `|new_end - new_start| ≤ 1`,
the break branch checks `new_from ≤ MAX_FROM`). -/
theorem find_new_from_loop_from_le (cnt : String → St → PRes Int × St)
    (query sort : String) (ss se fromV : Int) :
    ∀ (fuel : Nat) (ns ne : Int) (st : St) (b nf : Int) (st' : St),
      find_new_from_loop cnt query sort ss se fromV fuel ns ne st
        = (PRes.ok (b, nf), st') → nf ≤ MAX_FROM := by
  intro fuel
  induction fuel with
  | zero =>
    intro ns ne st b nf st' h
    simp [find_new_from_loop] at h
  | succ f ih =>
    intro ns ne st b nf st' h
    simp only [find_new_from_loop] at h
    split at h
    · rename_i habs
      simp only [Prod.mk.injEq, PRes.ok.injEq] at h
      obtain ⟨⟨h1, h2⟩, h3⟩ := h
      unfold MAX_FROM
      omega
    · obtain ⟨c, st1, hc, h⟩ := bind_eq_ok h
      split at h
      · exact ih _ _ st1 b nf st' h
      · split at h
        · rename_i hle
          simp only [Prod.mk.injEq, PRes.ok.injEq] at h
          obtain ⟨⟨h1, h2⟩, h3⟩ := h
          omega
        · exact ih _ _ st1 b nf st' h

/-- Membership step through `PResSt.bind`, remembering the produced value:
a request in the final log is in the left log, or the left side succeeded
and the request is in the continuation's log. -/
theorem mem_bind_log2 {α β : Type} (p : PRes α × St)
    (f : α → St → PRes β × St) (r : Req)
    (hr : r ∈ (PResSt.bind p f).2.log) :
    r ∈ p.2.log ∨ ∃ a st1, p = (PRes.ok a, st1) ∧ r ∈ (f a st1).2.log := by
  rcases p with ⟨pr, st⟩
  cases pr with
  | ok a => exact Or.inr ⟨a, st, rfl, hr⟩
  | fuelOut => exact Or.inl hr
  | panic => exact Or.inl hr
  | err e => exact Or.inl hr

/-- The equality `if asc then gt-wrap else lt-wrap` = single wrap with a
conditional comparator. -/
theorem cmp_query_ite (q sort : String) (asc : Bool) (v : Int) :
    (if asc then build_cmp_query q sort "gt" v
     else build_cmp_query q sort "lt" v)
      = build_cmp_query q sort (if asc then "gt" else "lt") v := by
  cases asc <;> rfl

/-- Inversion: a successful `ofExcept` leaves the state unchanged. -/
theorem ofExcept_eq_ok {α : Type} {r : Except String α} {st : St} {a : α}
    {st1 : St} (h : ofExcept r st = (PRes.ok a, st1)) : st1 = st := by
  have h2 := congrArg Prod.snd h
  rw [ofExcept_snd] at h2
  exact h2.symm

/-- Inversion: a successful `ofOptionPanic` leaves the state unchanged. -/
theorem ofOptionPanic_eq_ok {α : Type} {r : Option α} {st : St} {a : α}
    {st1 : St} (h : ofOptionPanic r st = (PRes.ok a, st1)) : st1 = st := by
  have h2 := congrArg Prod.snd h
  rw [ofOptionPanic_snd] at h2
  exact h2.symm

/-- Every request the Phase C loop adds to the log is a cursor request:
a single `build_cmp_query` wrap of the *original* query argument, sent
with `from = 0` and `size = min(remain_size, MAX_SIZE) ≤ MAX_SIZE`. -/
theorem batch_loop_mem (o : Oracle) (index q : String)
    (source : Option (List String)) (sort : String) (asc : Bool) :
    ∀ (fuel : Nat) (remain : Int) (hits : List EsJson) (list : List String)
      (st : St) (r : Req),
      r ∈ (batch_loop o index q source sort asc fuel remain hits list st).2.log →
      r ∈ st.log ∨
        (cursor_req_shape index q sort asc source r ∧ req_bounded r) := by
  intro fuel
  induction fuel with
  | zero => intro remain hits list st r hr; exact Or.inl hr
  | succ f ih =>
    intro remain hits list st r hr0
    have hshape : ∀ (v : Int),
        cursor_req_shape index q sort asc source
            (Req.searchReq index
              (build_search_body
                (if asc then build_cmp_query q sort "gt" v
                 else build_cmp_query q sort "lt" v) source sort asc 0
                (min remain MAX_SIZE))
              (if asc then build_cmp_query q sort "gt" v
               else build_cmp_query q sort "lt" v) sort asc source 0
              (min remain MAX_SIZE)) ∧
          req_bounded
            (Req.searchReq index
              (build_search_body
                (if asc then build_cmp_query q sort "gt" v
                 else build_cmp_query q sort "lt" v) source sort asc 0
                (min remain MAX_SIZE))
              (if asc then build_cmp_query q sort "gt" v
               else build_cmp_query q sort "lt" v) sort asc source 0
              (min remain MAX_SIZE)) := by
      intro v
      constructor
      · refine ⟨v, min remain MAX_SIZE, ?_⟩
        rw [cmp_query_ite]
      · exact ⟨by unfold MAX_FROM; omega, min_le_right _ _⟩
    simp only [batch_loop] at hr0
    split at hr0
    · exact Or.inl hr0
    · rcases mem_bind_log2 _ _ r hr0 with h | ⟨a1, s1, he1, hr1⟩
      · rw [ofOptionPanic_snd] at h
        exact Or.inl h
      · rw [ofOptionPanic_eq_ok he1] at hr1
        rcases mem_bind_log2 _ _ r hr1 with h | ⟨a2, s2, he2, hr2⟩
        · rw [ofExcept_snd] at h
          exact Or.inl h
        · rw [ofExcept_eq_ok he2] at hr2
          rcases mem_bind_log2 _ _ r hr2 with h | ⟨a3, s3, he3, hr3⟩
          · rw [ofExcept_snd] at h
            exact Or.inl h
          · rw [ofExcept_eq_ok he3] at hr3
            rcases mem_bind_log2 _ _ r hr3 with h | ⟨a4, s4, he4, hr4⟩
            · rw [ofOptionPanic_snd] at h
              exact Or.inl h
            · rw [ofOptionPanic_eq_ok he4] at hr4
              rcases mem_bind_log2 _ _ r hr4 with h | ⟨a5, s5, he5, hr5⟩
              · rw [ofExcept_snd] at h
                exact Or.inl h
              · rw [ofExcept_eq_ok he5] at hr5
                rcases mem_bind_log2 _ _ r hr5 with h | ⟨a6, s6, he6, hr6⟩
                · rw [ofOptionPanic_snd] at h
                  exact Or.inl h
                · rw [ofOptionPanic_eq_ok he6] at hr6
                  have hlog7 : ∀ {b7 : EsJson} {s7 : St},
                      query_es o st index
                          (if asc then build_cmp_query q sort "gt" a6
                           else build_cmp_query q sort "lt" a6) source sort asc 0
                          (min remain MAX_SIZE) = (PRes.ok b7, s7) →
                      s7.log = st.log ++
                        [Req.searchReq index
                          (build_search_body
                            (if asc then build_cmp_query q sort "gt" a6
                             else build_cmp_query q sort "lt" a6) source sort asc
                            0 (min remain MAX_SIZE))
                          (if asc then build_cmp_query q sort "gt" a6
                           else build_cmp_query q sort "lt" a6) sort asc source 0
                          (min remain MAX_SIZE)] := by
                    intro b7 s7 he
                    have h2 := congrArg St.log (congrArg Prod.snd he)
                    rw [query_es_log] at h2
                    exact h2.symm
                  rcases mem_bind_log2 _ _ r hr6 with h | ⟨a7, s7, he7, hr7⟩
                  · rw [query_es_log] at h
                    rcases List.mem_append.mp h with h | h
                    · exact Or.inl h
                    · obtain rfl := List.mem_singleton.mp h
                      exact Or.inr (hshape a6)
                  · rcases mem_bind_log2 _ _ r hr7 with h | ⟨a8, s8, he8, hr8⟩
                    · rw [ofExcept_snd, hlog7 he7] at h
                      rcases List.mem_append.mp h with h | h
                      · exact Or.inl h
                      · obtain rfl := List.mem_singleton.mp h
                        exact Or.inr (hshape a6)
                    · rw [ofExcept_eq_ok he8] at hr8
                      split at hr8
                      · rw [hlog7 he7] at hr8
                        rcases List.mem_append.mp hr8 with h | h
                        · exact Or.inl h
                        · obtain rfl := List.mem_singleton.mp h
                          exact Or.inr (hshape a6)
                      · rcases ih _ _ _ s7 r hr8 with h | h
                        · rw [hlog7 he7] at h
                          rcases List.mem_append.mp h with h | h
                          · exact Or.inl h
                          · obtain rfl := List.mem_singleton.mp h
                            exact Or.inr (hshape a6)
                        · exact Or.inr h

/-- Membership in the log after `extremum_sort`: either an old request or
a bounded one. -/
theorem extremum_sort_mem (o : Oracle) (st : St) (index q sort : String)
    (dir : Bool) (r : Req)
    (hr : r ∈ (extremum_sort o st index q sort dir).2.log) :
    r ∈ st.log ∨ req_bounded r := by
  rw [extremum_sort_log] at hr
  rcases List.mem_append.mp hr with h | h
  · exact Or.inl h
  · obtain rfl := List.mem_singleton.mp h
    exact Or.inr ⟨by unfold MAX_FROM; omega, by unfold MAX_SIZE; omega⟩

/-- Membership in the log after `count`: either an old request or a
`_count` request. -/
theorem count_cnt_mem (o : Oracle) (index : String) :
    ∀ (q : String) (s : St) (r : Req), r ∈ (count o s index q).2.log →
      r ∈ s.log ∨ ∃ i b qq, r = Req.countReq i b qq := by
  intro q s r hr
  rw [count_log] at hr
  rcases List.mem_append.mp hr with h | h
  · exact Or.inl h
  · obtain rfl := List.mem_singleton.mp h
    exact Or.inr ⟨_, _, _, rfl⟩

/-- Membership in the log after `phase_b`: either an old request or a
bounded one (the extremum probes use `(0, 1)`, the binary search only
counts). -/
theorem phase_b_mem (o : Oracle) (index q sort : String) (asc : Bool)
    (fromV : Int) (st : St) (r : Req)
    (hr : r ∈ (phase_b o index q sort asc fromV st).2.log) :
    r ∈ st.log ∨ req_bounded r := by
  unfold phase_b at hr
  split at hr
  · rcases mem_bind_log2 _ _ r hr with h | ⟨minv, s1, he1, hr1⟩
    · exact extremum_sort_mem o st index q sort true r h
    · have hmem1 : r ∈ s1.log → r ∈ st.log ∨ req_bounded r := by
        intro h2
        exact extremum_sort_mem o st index q sort true r (by rw [he1]; exact h2)
      split at hr1
      · exact hmem1 hr1
      · rename_i mv1 sort_min
        rcases mem_bind_log2 _ _ r hr1 with h | ⟨maxv, s2, he2, hr2⟩
        · rcases extremum_sort_mem o s1 index q sort false r h with h2 | h2
          · exact hmem1 h2
          · exact Or.inr h2
        · have hmem2 : r ∈ s2.log → r ∈ st.log ∨ req_bounded r := by
            intro h2
            rcases extremum_sort_mem o s1 index q sort false r
              (by rw [he2]; exact h2) with h3 | h3
            · exact hmem1 h3
            · exact Or.inr h3
          split at hr2
          · exact hmem2 hr2
          · rename_i mv2 sort_max
            have hloopmem : ∀ (ss se ns ne : Int) (fuel : Nat),
                r ∈ (find_new_from_loop (fun qq s => count o s index qq) q sort
                  ss se fromV fuel ns ne s2).2.log →
                r ∈ st.log ∨ req_bounded r := by
              intro ss se ns ne fuel hm
              rcases find_new_from_loop_mem (fun qq s => count o s index qq) q
                sort ss se fromV (count_cnt_mem o index) fuel ns ne s2 r hm
                with h2 | ⟨i, b, qq, rfl⟩
              · exact hmem2 h2
              · exact Or.inr trivial
            split at hr2
            · rcases mem_bind_log2 _ _ r hr2 with h | ⟨nf, s3, he3, hr3⟩
              · simp only [find_new_from] at h
                exact hloopmem _ _ _ _ _ h
              · replace hr3 : r ∈ s3.log := hr3
                have hm : r ∈ (find_new_from
                    (fun qq s => count o s index qq) q sort sort_min sort_max
                    fromV s2).2.log := by rw [he3]; exact hr3
                simp only [find_new_from] at hm
                exact hloopmem _ _ _ _ _ hm
            · rcases mem_bind_log2 _ _ r hr2 with h | ⟨nf, s3, he3, hr3⟩
              · simp only [find_new_from] at h
                exact hloopmem _ _ _ _ _ h
              · replace hr3 : r ∈ s3.log := hr3
                have hm : r ∈ (find_new_from
                    (fun qq s => count o s index qq) q sort sort_max sort_min
                    fromV s2).2.log := by rw [he3]; exact hr3
                simp only [find_new_from] at hm
                exact hloopmem _ _ _ _ _ hm
  · exact Or.inl hr

/-- When `phase_b` succeeds with a pair, the `new_from` it yields is at
most `MAX_FROM`: either it comes from the binary search (see
`find_new_from_loop_from_le`) or it is the unchanged `from ≤ MAX_FROM`. -/
theorem phase_b_from_le (o : Oracle) (index q sort : String) (asc : Bool)
    (fromV : Int) (st : St) (nq : String) (nf : Int) (st' : St)
    (h : phase_b o index q sort asc fromV st = (PRes.ok (some (nq, nf)), st')) :
    nf ≤ MAX_FROM := by
  unfold phase_b at h
  split at h
  · obtain ⟨minv, s1, he1, h⟩ := bind_eq_ok h
    cases minv with
    | none => simp at h
    | some sort_min =>
      simp only at h
      obtain ⟨maxv, s2, he2, h⟩ := bind_eq_ok h
      cases maxv with
      | none => simp at h
      | some sort_max =>
        simp only at h
        split at h
        · obtain ⟨nfp, s3, he3, h⟩ := bind_eq_ok h
          rcases nfp with ⟨b, nf2⟩
          simp only [Prod.mk.injEq, PRes.ok.injEq, Option.some.injEq] at h
          obtain ⟨⟨h1, h2⟩, h3⟩ := h
          subst h2
          exact find_new_from_loop_from_le _ q sort sort_min sort_max fromV _
            sort_min sort_max s2 b nf2 s3 he3
        · obtain ⟨nfp, s3, he3, h⟩ := bind_eq_ok h
          rcases nfp with ⟨b, nf2⟩
          simp only [Prod.mk.injEq, PRes.ok.injEq, Option.some.injEq] at h
          obtain ⟨⟨h1, h2⟩, h3⟩ := h
          subst h2
          exact find_new_from_loop_from_le _ q sort sort_max sort_min fromV _
            sort_max sort_min s2 b nf2 s3 he3
  · rename_i hle
    simp only [Prod.mk.injEq, PRes.ok.injEq, Option.some.injEq] at h
    obtain ⟨⟨h1, h2⟩, h3⟩ := h
    omega

/-- Membership in the log after `search_rest`: either an old request or a
bounded one (the first batch uses the `phase_b`-bounded `new_from` with
`size = min(size, MAX_SIZE)`; the cursor loop is covered by
`batch_loop_mem`). -/
theorem search_rest_mem (o : Oracle) (index q : String)
    (source : Option (List String)) (sort : String) (asc reverse : Bool)
    (fromV sizeV : Int) (st : St) (r : Req)
    (hr : r ∈ (search_rest o index q source sort asc reverse fromV sizeV
      st).2.log) :
    r ∈ st.log ∨ req_bounded r := by
  unfold search_rest at hr
  rcases mem_bind_log2 _ _ r hr with h | ⟨nq, s1, he1, hr1⟩
  · exact phase_b_mem o index q sort asc fromV st r h
  · have hmem1 : r ∈ s1.log → r ∈ st.log ∨ req_bounded r := by
      intro h2
      exact phase_b_mem o index q sort asc fromV st r (by rw [he1]; exact h2)
    split at hr1
    · exact hmem1 hr1
    · rename_i new_query new_from
      have hnf : new_from ≤ MAX_FROM :=
        phase_b_from_le o index q sort asc fromV st new_query new_from s1 he1
      rcases mem_bind_log2 _ _ r hr1 with h | ⟨batch, s2, he2, hr2⟩
      · rw [query_es_log] at h
        rcases List.mem_append.mp h with h | h
        · exact hmem1 h
        · obtain rfl := List.mem_singleton.mp h
          exact Or.inr ⟨hnf, min_le_right _ _⟩
      · have hmem2 : r ∈ s2.log → r ∈ st.log ∨ req_bounded r := by
          intro h2
          have h3 : r ∈ (query_es o s1 index new_query source sort asc
              new_from (min sizeV MAX_SIZE)).2.log := by rw [he2]; exact h2
          rw [query_es_log] at h3
          rcases List.mem_append.mp h3 with h3 | h3
          · exact hmem1 h3
          · obtain rfl := List.mem_singleton.mp h3
            exact Or.inr ⟨hnf, min_le_right _ _⟩
        rcases mem_bind_log2 _ _ r hr2 with h | ⟨hits, s3, he3, hr3⟩
        · rw [ofExcept_snd] at h
          exact hmem2 h
        · rw [ofExcept_eq_ok he3] at hr3
          split at hr3
          · exact hmem2 hr3
          · rcases mem_bind_log2 _ _ r hr3 with h | ⟨list2, s4, he4, hr4⟩
            · rcases batch_loop_mem o index q source sort asc _ _ _ _ s2 r h
                with h2 | ⟨_, h2⟩
              · exact hmem2 h2
              · exact Or.inr h2
            · have hr4' : r ∈ s4.log := by
                split at hr4
                · exact hr4
                · exact hr4
              have hm : r ∈ (batch_loop o index q source sort asc sizeV.toNat
                  (sizeV - hits.length) hits (hits.map to_json) s2).2.log := by
                rw [he4]; exact hr4'
              rcases batch_loop_mem o index q source sort asc _ _ _ _ s2 r hm
                with h2 | ⟨_, h2⟩
              · exact hmem2 h2
              · exact Or.inr h2

/-- **C1.** Every `_search` request body sent during any `search` call has
`from ≤ MAX_FROM` (2000) and `size ≤ MAX_SIZE` (3000): the `new_from`
produced by `find_new_from` is `≤ MAX_FROM` whenever it is used as the
first batch's offset, and every other `_search` uses `from ∈ {0}` or the
caller's own `from ≤ MAX_FROM`, with `size = min(·, MAX_SIZE)` or `1`
(`_count` requests carry no `from`/`size`). -/
theorem c1_no_request_exceeds_limits (o : Oracle) (index query : String)
    (source : Option (List String)) (sort : String) (asc : Bool)
    (fromV sizeV : Int) (r : Req)
    (hr : r ∈ (search o index query source sort asc fromV sizeV).2.log) :
    req_bounded r := by
  unfold search at hr
  split at hr
  · cases hr
  · split at hr
    · cases hr
    · split at hr
      · cases hr
      · split at hr
        · cases hr
        · split at hr
          · rcases mem_bind_log2 _ _ r hr with h | ⟨total, s1, he1, hr1⟩
            · rcases count_cnt_mem o index _ _ r h with h2 | ⟨i, b, qq, rfl⟩
              · cases h2
              · trivial
            · have hmem1 : r ∈ s1.log → req_bounded r := by
                intro h2
                rcases count_cnt_mem o index _ _ r (by rw [he1]; exact h2)
                  with h3 | ⟨i, b, qq, rfl⟩
                · cases h3
                · trivial
              split at hr1
              · exact hmem1 hr1
              · split at hr1
                · split at hr1
                  · split at hr1
                    · exact hmem1 hr1
                    · rcases search_rest_mem o index (norm_query query) source
                        sort (!asc) true _ _ s1 r hr1 with h2 | h2
                      · exact hmem1 h2
                      · exact h2
                · rcases search_rest_mem o index (norm_query query) source sort
                    asc false fromV sizeV s1 r hr1 with h2 | h2
                  · exact hmem1 h2
                  · exact h2
          · rcases search_rest_mem o index (norm_query query) source sort asc
              false fromV sizeV St.init r hr with h2 | h2
            · cases h2
            · exact h2

/-- Witness for `c1_no_request_exceeds_limits`: the single request of a
concrete small run (`from = 0`, `size = 1`, one hit in the response). -/
theorem c1_no_request_exceeds_limits_witness :
    (Req.searchReq "i" (build_search_body (norm_query "") none "id" true 0 1)
        (norm_query "") "id" true none 0 1
      ∈ (search (fun _ => Except.ok
          "\x7b\"hits\":\x7b\"hits\":[\x7b\"a\":1\x7d]\x7d\x7d") "i" ""
          none "id" true 0 1).2.log) ∧
    req_bounded (Req.searchReq "i"
      (build_search_body (norm_query "") none "id" true 0 1)
      (norm_query "") "id" true none 0 1) := by
  refine ⟨by decide, ?_⟩
  exact c1_no_request_exceeds_limits
    (fun _ => Except.ok "\x7b\"hits\":\x7b\"hits\":[\x7b\"a\":1\x7d]\x7d\x7d")
    "i" "" none "id" true 0 1 _ (by decide)

/-- **C3.** Every cursor query built after a batch in Phase C equals
`build_cmp_query` applied to the original (normalized) user query fragment
passed into the loop — never to the previously wrapped query — so every
request body sent during the batching loop contains exactly one level of
`bool`/`filter` wrapping, regardless of how many batches are issued: any
request the loop adds to the log is
`searchReq index (build_search_body (build_cmp_query query sort cmp v) ...)
(build_cmp_query query sort cmp v) ... 0 sz` for some sort value `v`
(where `cmp` is `"gt"`/`"lt"` per direction, and `query` is the loop's
original query argument — `search` passes the normalized user query). -/
theorem c3_cursor_queries_wrap_original_once (o : Oracle) (index q : String)
    (source : Option (List String)) (sort : String) (asc : Bool) (fuel : Nat)
    (remain : Int) (hits : List EsJson) (list : List String) (st : St)
    (r : Req)
    (hr : r ∈ (batch_loop o index q source sort asc fuel remain hits list
      st).2.log)
    (hnew : r ∉ st.log) :
    cursor_req_shape index q sort asc source r := by
  rcases batch_loop_mem o index q source sort asc fuel remain hits list st r hr
    with h | h
  · exact absurd h hnew
  · exact h.1

/-- Witness for `c3_cursor_queries_wrap_original_once`: a concrete loop run
(one remaining document, previous hit with `sort = [7]`, next batch empty)
whose logged cursor request wraps the original query once with
`"gt": 7`. -/
theorem c3_cursor_queries_wrap_original_once_witness :
    (Req.searchReq "i"
        (build_search_body
          (build_cmp_query "\x7b\"match_all\":\x7b\x7d\x7d" "s" "gt" 7) none
          "s" true 0 1)
        (build_cmp_query "\x7b\"match_all\":\x7b\x7d\x7d" "s" "gt" 7) "s" true
        none 0 1
      ∈ (batch_loop (fun _ => Except.ok
            "\x7b\"hits\":\x7b\"hits\":[]\x7d\x7d") "i"
            "\x7b\"match_all\":\x7b\x7d\x7d" none "s" true 1 1
            [EsJson.Object [("\"sort\"", EsJson.Array [EsJson.String "7"])]]
            [] St.init).2.log ∧
      Req.searchReq "i"
        (build_search_body
          (build_cmp_query "\x7b\"match_all\":\x7b\x7d\x7d" "s" "gt" 7) none
          "s" true 0 1)
        (build_cmp_query "\x7b\"match_all\":\x7b\x7d\x7d" "s" "gt" 7) "s" true
        none 0 1 ∉ St.init.log) ∧
    cursor_req_shape "i" "\x7b\"match_all\":\x7b\x7d\x7d" "s" true none
      (Req.searchReq "i"
        (build_search_body
          (build_cmp_query "\x7b\"match_all\":\x7b\x7d\x7d" "s" "gt" 7) none
          "s" true 0 1)
        (build_cmp_query "\x7b\"match_all\":\x7b\x7d\x7d" "s" "gt" 7) "s" true
        none 0 1) := by
  refine ⟨⟨by decide, by decide⟩, ?_⟩
  exact c3_cursor_queries_wrap_original_once
    (fun _ => Except.ok "\x7b\"hits\":\x7b\"hits\":[]\x7d\x7d") "i"
    "\x7b\"match_all\":\x7b\x7d\x7d" none "s" true 1 1
    [EsJson.Object [("\"sort\"", EsJson.Array [EsJson.String "7"])]] [] St.init
    _ (by decide) (by decide)

/-- `"` and `\\` differ. -/
theorem quote_ne_backslash : quoteChar ≠ backslashChar := by decide

/-- One in-range cursor step. -/
theorem goto_step (js : List Char) (len k : Nat) (ck : Char)
    (h : k + 1 < len) :
    EsJsonAnalyzer.goto_next_char ⟨js, len, k, ck⟩
      = (⟨js, len, k + 1, js.getD (k + 1) ck⟩, true) := by
  simp only [EsJsonAnalyzer.goto_next_char]
  rw [if_pos h]

/-- The position after any cursor step is the old position plus one. -/
theorem goto_pos (js : List Char) (q : Nat) (c : Char) :
    (EsJsonAnalyzer.goto_next_char ⟨js, js.length, q, c⟩).1.position = q + 1 := by
  simp only [EsJsonAnalyzer.goto_next_char]
  split <;> rfl

/-- `cpc_loop` scanning down from `j` computes the backslash run ending
just before `j + 1`, provided a double quote sits at some `p ≤ j` (so the
scan can never fall off the front of the input unobserved). -/
theorem cpc_loop_run (js : List Char) (p : Nat)
    (hp : js.get? p = some quoteChar) :
    ∀ (j : Nat) (acc : Nat), p ≤ j → j < js.length →
      EsJsonAnalyzer.cpc_loop js backslashChar j acc
        = some (acc + backslash_run js (j + 1)) := by
  intro j
  induction j with
  | zero =>
    intro acc hpj hlen
    have hp0 : js.get? 0 = some quoteChar := by
      have h0 : p = 0 := by omega
      rw [← h0]; exact hp
    unfold EsJsonAnalyzer.cpc_loop
    rw [hp0]
    simp only []
    rw [if_neg quote_ne_backslash]
    rw [backslash_run, hp0, if_neg (by simp [quote_ne_backslash])]
    simp
  | succ pp ih =>
    intro acc hpj hlen
    obtain ⟨c, hc⟩ : ∃ c, js.get? (pp + 1) = some c :=
      ⟨js[pp + 1], by simp [List.get?_eq_getElem?, List.getElem?_eq_getElem hlen]⟩
    have hrun : backslash_run js (pp + 1 + 1)
        = if js.get? (pp + 1) = some backslashChar
          then backslash_run js (pp + 1) + 1 else 0 := by
      rw [backslash_run]
    unfold EsJsonAnalyzer.cpc_loop
    rw [hc]
    simp only []
    by_cases hcb : c = backslashChar
    · subst hcb
      have hpne : p ≠ pp + 1 := by
        intro h
        rw [h, hc] at hp
        exact quote_ne_backslash (Option.some.inj hp).symm
      rw [if_pos rfl]
      rw [hrun, hc, if_pos rfl]
      by_cases hpp0 : pp = 0
      · subst hpp0
        rw [if_pos rfl]
        have hp0 : js.get? 0 = some quoteChar := by
          have h0 : p = 0 := by omega
          rw [← h0]; exact hp
        rw [show backslash_run js (0 + 1) = 0 from by
          rw [backslash_run, hp0, if_neg (by simp [quote_ne_backslash])]]
      · rw [if_neg hpp0]
        rw [ih (acc + 1) (by omega) (by omega)]
        congr 1
        omega
    · rw [if_neg hcb]
      rw [hrun, hc, if_neg (by simp [hcb])]
      simp

/-- `count_prev_char` at a position `k` with a quote somewhere strictly
before it computes exactly the backslash run ending just before `k`. -/
theorem count_prev_char_run (js : List Char) (p k : Nat) (c : Char)
    (hp : js.get? p = some quoteChar) (hpk : p < k) (hk : k < js.length) :
    EsJsonAnalyzer.count_prev_char ⟨js, js.length, k, c⟩ backslashChar
      = some (backslash_run js k) := by
  unfold EsJsonAnalyzer.count_prev_char
  rw [if_neg (by simp only; omega)]
  have h := cpc_loop_run js p hp (k - 1) 0 (by omega) (by omega)
  rw [show k - 1 + 1 = k by omega] at h
  simpa using h

/-- The scan loop of `read_json_string`, run from any position `k` at or
after the opening quote `p` but strictly before the least terminator `q`,
reaches `q`, pushes everything up to and including the quote at `q`, and
steps past it. -/
theorem rjs_scan_to_term (js : List Char) (p q : Nat)
    (hp : js.get? p = some quoteChar) (hq : q < js.length)
    (hterm : term_quote js q)
    (hmin : ∀ m, m < q → p < m → ¬term_quote js m) :
    ∀ (d k : Nat) (ck : Char) (acc : List Char), p ≤ k → k < q →
      q - k = d + 1 →
      EsJsonAnalyzer.rjs_scan (js.length - k + 1) ⟨js, js.length, k, ck⟩ acc
        = some (acc ++ (js.drop (k + 1)).take (q - k),
            (EsJsonAnalyzer.goto_next_char ⟨js, js.length, q, quoteChar⟩).1) := by
  intro d
  induction d with
  | zero =>
    intro k ck acc hpk hkq hd
    have hq1 : q = k + 1 := by omega
    subst hq1
    have hsl : (js.drop (k + 1)).take (k + 1 - k) = [quoteChar] := by
      rw [show k + 1 - k = 0 + 1 by omega, List.take_succ]
      simp only [List.take_zero, List.nil_append]
      rw [List.getElem?_drop, show k + 1 + 0 = k + 1 by omega,
        ← List.get?_eq_getElem?, hterm.1]
      rfl
    have hgd : js.getD (k + 1) ck = quoteChar := by
      rw [List.getD_eq_getElem?_getD, ← List.get?_eq_getElem?, hterm.1]
      rfl
    unfold EsJsonAnalyzer.rjs_scan
    rw [goto_step js js.length k ck (by omega)]
    simp only []
    rw [hgd]
    rw [if_pos rfl]
    rw [count_prev_char_run js p (k + 1) quoteChar hp (by omega) hq]
    simp only []
    rw [if_pos hterm.2, hsl]
  | succ d ih =>
    intro k ck acc hpk hkq hd
    obtain ⟨c1, hc1⟩ : ∃ c, js.get? (k + 1) = some c :=
      ⟨js[k + 1], by
        simp [List.get?_eq_getElem?, List.getElem?_eq_getElem
          (by omega : k + 1 < js.length)]⟩
    have hgd : js.getD (k + 1) ck = c1 := by
      rw [List.getD_eq_getElem?_getD, ← List.get?_eq_getElem?, hc1]
      rfl
    have hgas : js.length - k = js.length - (k + 1) + 1 := by omega
    have hslice : (js.drop (k + 1)).take (q - k)
        = c1 :: (js.drop (k + 1 + 1)).take (q - (k + 1)) := by
      have hlt1 : k + 1 < js.length := by omega
      have hck : js[k + 1] = c1 := by
        have h2 := hc1
        rw [List.get?_eq_getElem?, List.getElem?_eq_getElem
          (by omega : k + 1 < js.length)] at h2
        exact Option.some.inj h2
      rw [List.drop_eq_getElem_cons (by omega : k + 1 < js.length), hck,
        show q - k = (q - (k + 1)) + 1 by omega, List.take_succ_cons]
    unfold EsJsonAnalyzer.rjs_scan
    rw [goto_step js js.length k ck (by omega)]
    simp only []
    rw [hgd]
    by_cases hcq : c1 = quoteChar
    · subst hcq
      rw [if_pos rfl]
      rw [count_prev_char_run js p (k + 1) quoteChar hp (by omega) (by omega)]
      have hodd : ¬(backslash_run js (k + 1) % 2 = 0) := by
        intro heven
        exact hmin (k + 1) (by omega) (by omega) ⟨hc1, heven⟩
      simp only []
      rw [if_neg hodd]
      rw [hgas, ih (k + 1) quoteChar (acc ++ [quoteChar]) (by omega) (by omega)
        (by omega)]
      rw [hslice]
      simp
    · rw [if_neg hcq]
      rw [hgas, ih (k + 1) c1 (acc ++ [c1]) (by omega) (by omega) (by omega)]
      rw [hslice]
      simp

/-- **C9.** When the parser reads a JSON string starting at the quote at
position `p`, a double quote at position `q > p` terminates the string iff
the count of immediately preceding consecutive backslashes is even
(`term_quote`), and both surrounding quotes are kept in the stored value:
if `q` is the least such terminator, `read_json_string` returns exactly
the slice `js[p ..= q]` (which starts and ends with a double quote —
quotes at intermediate positions with an odd backslash count, excluded by
the minimality hypothesis, are passed over by the scan), and leaves the
cursor at `q + 1`. -/
theorem c9_string_reader_terminates_at_even_escaped_quote
    (js : List Char) (p q : Nat)
    (hp : js.get? p = some quoteChar) (hpq : p < q) (hq : q < js.length)
    (hterm : term_quote js q)
    (hmin : ∀ m, m < q → p < m → ¬term_quote js m) :
    EsJsonAnalyzer.read_json_string ⟨js, js.length, p, quoteChar⟩
      = some ((js.drop p).take (q + 1 - p),
          (EsJsonAnalyzer.goto_next_char ⟨js, js.length, q, quoteChar⟩).1) ∧
    (∃ mid, (js.drop p).take (q + 1 - p) = quoteChar :: (mid ++ [quoteChar])) ∧
    (EsJsonAnalyzer.goto_next_char ⟨js, js.length, q, quoteChar⟩).1.position
      = q + 1 := by
  have hslice : (js.drop p).take (q + 1 - p)
      = quoteChar :: (js.drop (p + 1)).take (q - p) := by
    have hltp : p < js.length := by omega
    have hck : js[p] = quoteChar := by
      have h2 := hp
      rw [List.get?_eq_getElem?, List.getElem?_eq_getElem
        (by omega : p < js.length)] at h2
      exact Option.some.inj h2
    rw [List.drop_eq_getElem_cons (by omega : p < js.length), hck,
      show q + 1 - p = (q - p) + 1 by omega, List.take_succ_cons]
  refine ⟨?_, ?_, goto_pos js q quoteChar⟩
  · unfold EsJsonAnalyzer.read_json_string
    rw [if_pos rfl]
    rw [rjs_scan_to_term js p q hp hq hterm hmin (q - p - 1) p quoteChar
      [quoteChar] (by omega) hpq (by omega)]
    rw [hslice]
    simp
  · refine ⟨(js.drop (p + 1)).take (q - p - 1), ?_⟩
    rw [hslice]
    congr 1
    rw [show q - p = (q - p - 1) + 1 by omega, List.take_succ]
    congr 1
    rw [List.getElem?_drop, show p + 1 + (q - p - 1) = q by omega,
      ← List.get?_eq_getElem?, hterm.1]
    rfl

/-- Witness for `c9_string_reader_terminates_at_even_escaped_quote` on the
concrete input `"a\"b"` (opening quote at 0, an odd-escaped quote at 3,
the terminator at 5). -/
theorem c9_string_reader_witness :
    (("\"a\\\"b\"".toList.get? 0 = some quoteChar) ∧ (0 : Nat) < 5 ∧
      5 < "\"a\\\"b\"".toList.length ∧ term_quote "\"a\\\"b\"".toList 5 ∧
      ∀ m, m < 5 → 0 < m → ¬term_quote "\"a\\\"b\"".toList m) ∧
    EsJsonAnalyzer.read_json_string
        ⟨"\"a\\\"b\"".toList, "\"a\\\"b\"".toList.length, 0, quoteChar⟩
      = some (("\"a\\\"b\"".toList.drop 0).take (5 + 1 - 0),
          (EsJsonAnalyzer.goto_next_char
            ⟨"\"a\\\"b\"".toList, "\"a\\\"b\"".toList.length, 5,
              quoteChar⟩).1) := by
  refine ⟨⟨by decide, by decide, by decide, by decide, by decide⟩, ?_⟩
  exact (c9_string_reader_terminates_at_even_escaped_quote "\"a\\\"b\"".toList
    0 5 (by decide) (by decide) (by decide) (by decide) (by decide)).1

/-- Witness for `c4_phase_a_offset_at_most_half` at
`total = 10000, from = 6000, size = 10` (a reversing instance). -/
theorem c4_phase_a_offset_at_most_half_witness :
    ((0 : Int) ≤ 6000 ∧ (6000 : Int) ≤ 10000 ∧ (1 : Int) ≤ 10 ∧
      MAX_FROM < (6000 : Int)) ∧
    (if (10000 : Int) - 6000 < 6000 then (reverse_adjust 10000 6000 10).1
     else 6000) ≤ 10000 / 2 := by
  refine ⟨by decide, ?_⟩
  exact c4_phase_a_offset_at_most_half 10000 6000 10 (by decide) (by decide)
    (by decide) (by decide)

/-! ### Correctness of the JSON walker on well-formed texts (for C8) -/

theorem mk_append (a b : List Char) :
    String.mk a ++ String.mk b = String.mk (a ++ b) := rfl

/-- A drop-shape starting with `c` pins down the character at the cursor. -/
theorem drop_head {js : List Char} {k : Nat} {c : Char} {rest : List Char}
    (h : js.drop k = c :: rest) : js.get? k = some c ∧ k < js.length := by
  have hlt : k < js.length := by
    by_contra hk
    rw [List.drop_eq_nil_of_le (by omega)] at h
    cases h
  have h0 : (js.drop k)[0]? = some c := by rw [h]; simp
  rw [List.getElem?_drop] at h0
  rw [List.get?_eq_getElem?]
  exact ⟨by simpa using h0, hlt⟩

/-- Advance a drop-shape past a known prefix. -/
theorem drop_shift {js A rest : List Char} {k : Nat}
    (h : js.drop k = A ++ rest) : js.drop (k + A.length) = rest := by
  have h2 : (js.drop k).drop A.length = rest := by
    rw [h]; exact List.drop_left A rest
  rw [List.drop_drop] at h2
  exact h2

/-- The `getD` value at the head of a drop-shape, any default. -/
theorem drop_getD {js : List Char} {k : Nat} {c : Char} {rest : List Char}
    (d : Char) (h : js.drop k = c :: rest) : js.getD k d = c := by
  rw [List.getD_eq_getElem?_getD, ← List.get?_eq_getElem?, (drop_head h).1]
  rfl

/-- In range, `getD` does not depend on the default. -/
theorem getD_irrel (js : List Char) (k : Nat) (hk : k < js.length)
    (d d' : Char) : js.getD k d = js.getD k d' := by
  rw [List.getD_eq_getElem?_getD, List.getD_eq_getElem?_getD,
    List.getElem?_eq_getElem hk]
  rfl

theorem drop_ne_nil_lt {js : List Char} {k : Nat} (h : js.drop k ≠ []) :
    k < js.length := by
  by_contra hk
  exact h (List.drop_eq_nil_of_le (by omega))

theorem take_len_plus (A B : List Char) (n : Nat) :
    (A ++ B).take (A.length + n) = A ++ B.take n := by
  induction A with
  | nil => simp
  | cons a A ih =>
    simp only [List.cons_append, List.length_cons]
    rw [show A.length + 1 + n = (A.length + n) + 1 from by omega,
      List.take_succ_cons, ih]

theorem stat_char (js : List Char) (k : Nat) :
    (stat js k).character = js.getD k ' ' := rfl

theorem stat_pos (js : List Char) (k : Nat) : (stat js k).position = k := rfl

theorem okSt_stat (js : List Char) (k : Nat) : okSt js k (stat js k) :=
  ⟨rfl, rfl, rfl, fun _ => rfl⟩

/-- An in-range state satisfying the invariant is the canonical one. -/
theorem okSt_eq_stat {js : List Char} {k : Nat} {st : EsJsonAnalyzer}
    (h : okSt js k st) (hk : k < js.length) : st = stat js k := by
  obtain ⟨h1, h2, h3, h4⟩ := h
  cases st
  simp only [stat, EsJsonAnalyzer.mk.injEq]
  exact ⟨h1, h2, h3, h4 hk⟩

/-- Stepping from any state at `q` preserves the invariant at `q + 1`. -/
theorem goto_okSt (js : List Char) (q : Nat) (c : Char) :
    okSt js (q + 1) (EsJsonAnalyzer.goto_next_char ⟨js, js.length, q, c⟩).1 := by
  simp only [EsJsonAnalyzer.goto_next_char]
  split
  · rename_i h
    exact ⟨rfl, rfl, rfl, fun hh => getD_irrel js (q + 1) hh c ' '⟩
  · rename_i h
    exact ⟨rfl, rfl, rfl, fun hh => absurd hh (by simpa using h)⟩

theorem goto_okSt_stat (js : List Char) (q : Nat) :
    okSt js (q + 1) (EsJsonAnalyzer.goto_next_char (stat js q)).1 :=
  goto_okSt js q (js.getD q ' ')

/-- An in-range step from the canonical state lands on the canonical
state. -/
theorem goto_stat (js : List Char) (q : Nat) (h : q + 1 < js.length) :
    (EsJsonAnalyzer.goto_next_char (stat js q)).1 = stat js (q + 1) := by
  show (EsJsonAnalyzer.goto_next_char ⟨js, js.length, q, js.getD q ' '⟩).1
    = stat js (q + 1)
  rw [goto_step js js.length q (js.getD q ' ') h]
  simp only [stat, EsJsonAnalyzer.mk.injEq, true_and, and_true]
  exact getD_irrel js (q + 1) h _ _

/-- Whitespace characters are stop characters. -/
theorem space_subset_stop (c : Char)
    (h : EsJsonAnalyzer.SPACE_CHARS.contains c = true) :
    EsJsonAnalyzer.STOP_CHARS.contains c = true := by
  simp [EsJsonAnalyzer.SPACE_CHARS] at h
  simp [EsJsonAnalyzer.STOP_CHARS]
  tauto

/-- `skip_space_go` walks over exactly the whitespace chunk `w` when the
character after it is not whitespace. -/
theorem skip_space_go_ws (js : List Char) :
    ∀ (w : List Char) (k : Nat) (c : Char) (post : List Char),
      wsOk w = true →
      js.drop k = w ++ c :: post →
      ¬(EsJsonAnalyzer.SPACE_CHARS.contains c = true) →
      EsJsonAnalyzer.skip_space_go (js.length - k + 1) (stat js k)
        = stat js (k + w.length) := by
  intro w
  induction w with
  | nil =>
    intro k c post hw hdrop hc
    have hchar : js.getD k ' ' = c := drop_getD ' ' (by simpa using hdrop)
    unfold EsJsonAnalyzer.skip_space_go
    rw [stat_char, hchar, if_neg hc]
    simp [stat]
  | cons a w' ih =>
    intro k c post hw hdrop hc
    simp only [wsOk, List.all_cons, Bool.and_eq_true] at hw
    have hdrop1 : js.drop k = a :: (w' ++ c :: post) := by simpa using hdrop
    have hchar : js.getD k ' ' = a := drop_getD ' ' hdrop1
    have hdrop2 : js.drop (k + 1) = w' ++ c :: post := by
      have := drop_shift (A := [a]) (by simpa using hdrop1)
      simpa using this
    have hk1 : k + 1 < js.length := drop_ne_nil_lt (by rw [hdrop2]; simp)
    have hgoto : EsJsonAnalyzer.goto_next_char (stat js k)
        = (stat js (k + 1), true) := by
      show EsJsonAnalyzer.goto_next_char ⟨js, js.length, k, js.getD k ' '⟩
        = (stat js (k + 1), true)
      rw [goto_step js js.length k (js.getD k ' ') hk1]
      simp only [stat, Prod.mk.injEq, EsJsonAnalyzer.mk.injEq, true_and,
        and_true]
      exact getD_irrel js (k + 1) hk1 _ _
    unfold EsJsonAnalyzer.skip_space_go
    rw [stat_char, hchar, if_pos hw.1]
    show (match EsJsonAnalyzer.goto_next_char (stat js k) with
      | (st', true) => EsJsonAnalyzer.skip_space_go (js.length - k) st'
      | (st', false) => st') = stat js (k + (w'.length + 1))
    rw [hgoto]
    simp only []
    rw [show js.length - k = js.length - (k + 1) + 1 from by omega]
    rw [ih (k + 1) c post hw.2 hdrop2 hc]
    rw [show k + 1 + w'.length = k + (w'.length + 1) from by omega]

/-- `skip_space` on the canonical state walks over exactly the whitespace
chunk `w` when the character after it is not whitespace. -/
theorem skip_space_ws (js w : List Char) (k : Nat) (c : Char)
    (post : List Char) (hw : wsOk w = true) (hdrop : js.drop k = w ++ c :: post)
    (hc : ¬(EsJsonAnalyzer.SPACE_CHARS.contains c = true)) :
    EsJsonAnalyzer.skip_space (stat js k) = stat js (k + w.length) := by
  unfold EsJsonAnalyzer.skip_space
  exact skip_space_go_ws js w k c post hw hdrop hc

/-- The literal reader consumes exactly the stop-free chunk `cs` and stops
at the following stop character (or at the end of the input). -/
theorem read_json_literal_go_run (js : List Char) :
    ∀ (cs : List Char) (k : Nat) (acc : List Char) (post : List Char),
      (∀ c ∈ cs, ¬(EsJsonAnalyzer.STOP_CHARS.contains c = true)) →
      js.drop k = cs ++ post →
      (post = [] ∨ ∃ c rest, post = c :: rest ∧
        EsJsonAnalyzer.STOP_CHARS.contains c = true) →
      (cs ≠ [] ∨ post ≠ []) →
      ∃ st', EsJsonAnalyzer.read_json_literal_go (js.length - k + 1)
          (stat js k) acc = (acc ++ cs, st') ∧ okSt js (k + cs.length) st' := by
  intro cs
  induction cs with
  | nil =>
    intro k acc post hstop hdrop hpost hne
    rcases hpost with rfl | ⟨c, rest, rfl, hcstop⟩
    · rcases hne with h | h
      · exact absurd rfl h
      · exact absurd rfl h
    · have hchar : js.getD k ' ' = c := drop_getD ' ' (by simpa using hdrop)
      refine ⟨stat js k, ?_, okSt_stat js k⟩
      unfold EsJsonAnalyzer.read_json_literal_go
      rw [stat_char, hchar, if_pos hcstop]
      simp
  | cons c cs' ih =>
    intro k acc post hstop hdrop hpost hne
    have hdrop1 : js.drop k = c :: (cs' ++ post) := by simpa using hdrop
    have hchar : js.getD k ' ' = c := drop_getD ' ' hdrop1
    have hcs : ¬(EsJsonAnalyzer.STOP_CHARS.contains c = true) :=
      hstop c (by simp)
    have hdrop2 : js.drop (k + 1) = cs' ++ post := by
      have := drop_shift (A := [c]) (by simpa using hdrop1)
      simpa using this
    unfold EsJsonAnalyzer.read_json_literal_go
    rw [stat_char, hchar, if_neg hcs]
    by_cases hrest : cs' ++ post = []
    · obtain ⟨hcs0, hpost0⟩ := List.append_eq_nil.mp hrest
      subst hcs0; subst hpost0
      have hklen : ¬(k + 1 < js.length) := by
        have h0 : js.drop (k + 1) = [] := by simpa using hdrop2
        have := List.drop_eq_nil_iff.mp h0
        omega
      have hgoto : EsJsonAnalyzer.goto_next_char (stat js k)
          = (⟨js, js.length, k + 1, js.getD k ' '⟩, false) := by
        show EsJsonAnalyzer.goto_next_char ⟨js, js.length, k, js.getD k ' '⟩
          = _
        simp only [EsJsonAnalyzer.goto_next_char]
        rw [if_neg hklen]
      refine ⟨⟨js, js.length, k + 1, js.getD k ' '⟩, ?_, ?_⟩
      · show (match EsJsonAnalyzer.goto_next_char (stat js k) with
          | (st', true) =>
            EsJsonAnalyzer.read_json_literal_go (js.length - k) st'
              (acc ++ [c])
          | (st', false) => (acc ++ [c], st')) = _
        rw [hgoto]
      · exact ⟨rfl, rfl, rfl, fun hh => absurd hh (by
          simp only [List.length_cons, List.length_nil] at hh; omega)⟩
    · have hk1 : k + 1 < js.length := drop_ne_nil_lt (by rw [hdrop2]; exact hrest)
      have hne' : cs' ≠ [] ∨ post ≠ [] := by
        by_cases hcs0 : cs' = []
        · exact Or.inr (fun hp => hrest (by simp [hcs0, hp]))
        · exact Or.inl hcs0
      obtain ⟨st', hrun, hok⟩ := ih (k + 1) (acc ++ [c]) post
        (fun c2 hc2 => hstop c2 (by simp [hc2])) hdrop2 hpost hne'
      have hgoto : EsJsonAnalyzer.goto_next_char (stat js k)
          = (stat js (k + 1), true) := by
        show EsJsonAnalyzer.goto_next_char ⟨js, js.length, k, js.getD k ' '⟩
          = (stat js (k + 1), true)
        rw [goto_step js js.length k (js.getD k ' ') hk1]
        simp only [stat, Prod.mk.injEq, EsJsonAnalyzer.mk.injEq, true_and,
          and_true]
        exact getD_irrel js (k + 1) hk1 _ _
      refine ⟨st', ?_, ?_⟩
      · show (match EsJsonAnalyzer.goto_next_char (stat js k) with
          | (st', true) =>
            EsJsonAnalyzer.read_json_literal_go (js.length - k) st'
              (acc ++ [c])
          | (st', false) => (acc ++ [c], st')) = _
        rw [hgoto]
        simp only []
        rw [show js.length - k = js.length - (k + 1) + 1 from by omega]
        rw [hrun]
        simp
      · rw [show k + (c :: cs').length = k + 1 + cs'.length from by
          simp only [List.length_cons]; omega]
        exact hok

/-- Scanning a well-escaped string body: the closing position is
even-escaped and no interior position terminates the scan. -/
theorem strBody_scan (js : List Char) :
    ∀ (body post : List Char) (k run : Nat),
      strBodyOkAux body run = true →
      js.drop (k + 1) = body ++ quoteChar :: post →
      backslash_run js (k + 1) = run →
      backslash_run js (k + 1 + body.length) % 2 = 0 ∧
      (∀ m, k + 1 ≤ m → m < k + 1 + body.length → ¬term_quote js m) := by
  intro body
  induction body with
  | nil =>
    intro post k run hb hdrop hrun
    simp only [strBodyOkAux, decide_eq_true_eq] at hb
    refine ⟨by simpa [hrun] using hb, ?_⟩
    intro m h1 h2 _
    simp only [List.length_nil] at h2
    omega
  | cons c body' ih =>
    intro post k run hb hdrop hrun
    have hdrop1 : js.drop (k + 1) = c :: (body' ++ quoteChar :: post) := by
      simpa using hdrop
    have hc := (drop_head hdrop1).1
    have hdrop2 : js.drop (k + 1 + 1) = body' ++ quoteChar :: post := by
      have := drop_shift (A := [c]) (by simpa using hdrop1)
      simpa using this
    have hrun2base : backslash_run js (k + 1 + 1)
        = if js.get? (k + 1) = some backslashChar
          then backslash_run js (k + 1) + 1 else 0 := by
      rw [backslash_run]
    by_cases hcq : c = quoteChar
    · subst hcq
      rw [strBodyOkAux, if_pos rfl] at hb
      simp only [Bool.and_eq_true, decide_eq_true_eq] at hb
      have hrun2 : backslash_run js (k + 1 + 1) = 0 := by
        rw [hrun2base, hc, if_neg (by simp [quote_ne_backslash])]
      obtain ⟨ha, hmin⟩ := ih post (k + 1) 0 hb.2 hdrop2 hrun2
      refine ⟨?_, ?_⟩
      · rw [show k + 1 + (quoteChar :: body').length
            = k + 1 + 1 + body'.length from by
          simp only [List.length_cons]; omega]
        exact ha
      · intro m h1 h2
        by_cases hm : m = k + 1
        · subst hm
          intro ht
          have h2' := ht.2
          rw [hrun] at h2'
          omega
        · exact hmin m (by omega)
            (by simp only [List.length_cons] at h2; omega)
    · by_cases hcb : c = backslashChar
      · subst hcb
        rw [strBodyOkAux, if_neg hcq, if_pos rfl] at hb
        have hrun2 : backslash_run js (k + 1 + 1)
            = run + 1 := by
          rw [hrun2base, hc, if_pos rfl, hrun]
        obtain ⟨ha, hmin⟩ := ih post (k + 1) (run + 1) hb hdrop2 hrun2
        refine ⟨?_, ?_⟩
        · rw [show k + 1 + (backslashChar :: body').length
              = k + 1 + 1 + body'.length from by
            simp only [List.length_cons]; omega]
          exact ha
        · intro m h1 h2
          by_cases hm : m = k + 1
          · subst hm
            intro ht
            obtain ⟨ht1, ht2⟩ := ht
            rw [hc] at ht1
            exact quote_ne_backslash (Option.some.inj ht1).symm
          · exact hmin m (by omega)
              (by simp only [List.length_cons] at h2; omega)
      · rw [strBodyOkAux, if_neg hcq, if_neg hcb] at hb
        have hrun2 : backslash_run js (k + 1 + 1) = 0 := by
          rw [hrun2base, hc, if_neg (by simp [hcb])]
        obtain ⟨ha, hmin⟩ := ih post (k + 1) 0 hb hdrop2 hrun2
        refine ⟨?_, ?_⟩
        · rw [show k + 1 + (c :: body').length
              = k + 1 + 1 + body'.length from by
            simp only [List.length_cons]; omega]
          exact ha
        · intro m h1 h2
          by_cases hm : m = k + 1
          · subst hm
            intro ht
            obtain ⟨ht1, ht2⟩ := ht
            rw [hc] at ht1
            exact hcq (Option.some.inj ht1)
          · exact hmin m (by omega)
              (by simp only [List.length_cons] at h2; omega)

/-- The string reader consumes exactly one well-escaped string token
(quotes kept) and leaves the cursor just past the closing quote. -/
theorem read_json_string_token (js : List Char) (body post : List Char)
    (k : Nat) (hb : strBodyOk body = true)
    (hdrop : js.drop k = (quoteChar :: (body ++ [quoteChar])) ++ post) :
    ∃ st', EsJsonAnalyzer.read_json_string (stat js k)
        = some (quoteChar :: (body ++ [quoteChar]), st') ∧
      okSt js (k + body.length + 2) st' := by
  have hdrop0 : js.drop k
      = quoteChar :: (body ++ quoteChar :: post) := by simpa using hdrop
  have hk := drop_head hdrop0
  have hdrop1 : js.drop (k + 1) = body ++ quoteChar :: post := by
    have := drop_shift (A := [quoteChar]) (by simpa using hdrop0)
    simpa using this
  have hdropq : js.drop (k + 1 + body.length) = quoteChar :: post :=
    drop_shift hdrop1
  have hq := drop_head hdropq
  have hrun1 : backslash_run js (k + 1) = 0 := by
    rw [backslash_run, hk.1, if_neg (by simp [quote_ne_backslash])]
  obtain ⟨heven, hmin⟩ := strBody_scan js body post k 0 hb hdrop1 hrun1
  have hterm : term_quote js (k + 1 + body.length) := ⟨hq.1, heven⟩
  have hminq : ∀ m, m < k + 1 + body.length → k < m → ¬term_quote js m := by
    intro m h1 h2
    exact hmin m (by omega) h1
  have hchar : js.getD k ' ' = quoteChar := drop_getD ' ' hdrop0
  have hstat : stat js k = ⟨js, js.length, k, quoteChar⟩ := by
    rw [stat, hchar]
  refine ⟨(EsJsonAnalyzer.goto_next_char
      ⟨js, js.length, k + 1 + body.length, quoteChar⟩).1, ?_, ?_⟩
  · rw [hstat]
    unfold EsJsonAnalyzer.read_json_string
    dsimp only
    rw [if_pos rfl]
    rw [rjs_scan_to_term js k (k + 1 + body.length) hk.1 hq.2 hterm hminq
      (k + 1 + body.length - k - 1) k quoteChar [quoteChar] (by omega)
      (by omega) (by omega)]
    rw [show k + 1 + body.length - k = body.length + 1 from by omega]
    rw [hdrop1]
    rw [show body.length + 1 = body.length + 1 from rfl,
      take_len_plus body (quoteChar :: post) 1]
    simp
  · have hok := goto_okSt js (k + 1 + body.length) quoteChar
    rw [show k + 1 + body.length + 1 = k + body.length + 2 from by omega]
      at hok
    exact hok

/-- The first character of a valid token is not whitespace and not one of
the loop delimiters. -/
theorem renderS_head (v : SJson) (hv : validS v = true) :
    ∃ c rest, renderS v = c :: rest ∧
      ¬(EsJsonAnalyzer.SPACE_CHARS.contains c = true) ∧
      c ≠ ',' ∧ c ≠ ']' ∧ c ≠ rbraceChar := by
  cases v with
  | jstr body =>
    exact ⟨quoteChar, body ++ [quoteChar], rfl, by decide, by decide,
      by decide, by decide⟩
  | jlit cs =>
    cases cs with
    | nil => simp [validS, litOk] at hv
    | cons c cs' =>
      have hstop : ¬(EsJsonAnalyzer.STOP_CHARS.contains c = true) := by
        simp only [validS, litOk, List.all_cons, Bool.and_eq_true,
          decide_eq_true_eq] at hv
        tauto
      refine ⟨c, cs', rfl, fun hsp => hstop (space_subset_stop c hsp),
        ?_, ?_, ?_⟩
      · intro hc; subst hc; exact hstop (by decide)
      · intro hc; subst hc; exact hstop (by decide)
      · intro hc; subst hc; exact hstop (by decide)
  | jarr wsEnd elems =>
    exact ⟨'[', renderElems wsEnd elems ++ [']'], rfl, by decide, by decide,
      by decide, by decide⟩
  | jobj wsEnd fields =>
    exact ⟨lbraceChar, renderFields wsEnd fields ++ [rbraceChar], rfl,
      by decide, by decide, by decide, by decide⟩

theorem render_pos (v : SJson) (hv : validS v = true) :
    1 ≤ (renderS v).length := by
  obtain ⟨c, rest, hcr, -, -, -, -⟩ := renderS_head v hv
  rw [hcr]
  simp

theorem litSafe_of_stop (v : SJson) (post : List Char)
    (h : post = [] ∨ ∃ c rest, post = c :: rest ∧
      EsJsonAnalyzer.STOP_CHARS.contains c = true) : litSafe v post := by
  cases v with
  | jstr body => trivial
  | jlit cs => exact h
  | jarr wsEnd elems => trivial
  | jobj wsEnd fields => trivial

theorem elemsTail_head (rest : SElems) :
    renderElemsTail rest = [] ∨ ∃ c r, renderElemsTail rest = c :: r ∧
      EsJsonAnalyzer.STOP_CHARS.contains c = true := by
  cases rest with
  | nil => exact Or.inl rfl
  | cons w v pw r => exact Or.inr ⟨',', _, rfl, by decide⟩

theorem fieldsTail_head (rest : SFields) :
    renderFieldsTail rest = [] ∨ ∃ c r, renderFieldsTail rest = c :: r ∧
      EsJsonAnalyzer.STOP_CHARS.contains c = true := by
  cases rest with
  | nil => exact Or.inl rfl
  | cons w key wa wb v pw r => exact Or.inr ⟨',', _, rfl, by decide⟩

/-- A whitespace chunk followed by a tail headed (if non-empty) by a stop
character and then a stop character: the whole is headed by a stop
character. -/
theorem cont_head_stop (w tail : List Char) (c : Char) (post : List Char)
    (hw : wsOk w = true)
    (hc : EsJsonAnalyzer.STOP_CHARS.contains c = true)
    (htail : tail = [] ∨ ∃ c2 r2, tail = c2 :: r2 ∧
      EsJsonAnalyzer.STOP_CHARS.contains c2 = true) :
    ∃ c3 r3, w ++ (tail ++ (c :: post)) = c3 :: r3 ∧
      EsJsonAnalyzer.STOP_CHARS.contains c3 = true := by
  cases w with
  | cons a w' =>
    refine ⟨a, w' ++ (tail ++ (c :: post)), rfl, ?_⟩
    simp only [wsOk, List.all_cons, Bool.and_eq_true] at hw
    exact space_subset_stop a hw.1
  | nil =>
    rcases htail with rfl | ⟨c2, r2, rfl, hc2⟩
    · exact ⟨c, post, by simp, hc⟩
    · exact ⟨c2, r2 ++ (c :: post), by simp, hc2⟩

/-- One unfolding of the array loop when the progress assertion passes. -/
theorem arr_loop_step (rv : EsJsonAnalyzer → PRes (EsJson × EsJsonAnalyzer))
    (f : Nat) (st : EsJsonAnalyzer) (ary : List EsJson) (lp : Nat)
    (h : ¬(st.position = lp)) :
    EsJsonAnalyzer.read_json_array_loop rv (f + 1) st ary lp
      = (if (EsJsonAnalyzer.skip_space st).character = ',' then
          EsJsonAnalyzer.read_json_array_loop rv f
            (EsJsonAnalyzer.goto_next_char (EsJsonAnalyzer.skip_space st)).1
            ary st.position
        else if (EsJsonAnalyzer.skip_space st).character = ']' then
          .ok (ary, (EsJsonAnalyzer.goto_next_char
            (EsJsonAnalyzer.skip_space st)).1)
        else
          (rv (EsJsonAnalyzer.skip_space st)).bind fun (v, st2) =>
            EsJsonAnalyzer.read_json_array_loop rv f st2 (ary ++ [v])
              st.position) := by
  rw [EsJsonAnalyzer.read_json_array_loop]
  rw [if_neg h]

/-- One unfolding of the object loop when the progress assertion passes. -/
theorem obj_loop_step
    (rkv : EsJsonAnalyzer → PRes ((String × EsJson) × EsJsonAnalyzer))
    (f : Nat) (st : EsJsonAnalyzer) (obj : List (String × EsJson)) (lp : Nat)
    (h : ¬(st.position = lp)) :
    EsJsonAnalyzer.read_json_object_loop rkv (f + 1) st obj lp
      = (if (EsJsonAnalyzer.skip_space st).character = ',' then
          EsJsonAnalyzer.read_json_object_loop rkv f
            (EsJsonAnalyzer.goto_next_char (EsJsonAnalyzer.skip_space st)).1
            obj st.position
        else if (EsJsonAnalyzer.skip_space st).character = rbraceChar then
          .ok (obj, (EsJsonAnalyzer.goto_next_char
            (EsJsonAnalyzer.skip_space st)).1)
        else
          (rkv (EsJsonAnalyzer.skip_space st)).bind fun (kv, st2) =>
            EsJsonAnalyzer.read_json_object_loop rkv f st2 (obj ++ [kv])
              st.position) := by
  rw [EsJsonAnalyzer.read_json_object_loop]
  rw [if_neg h]

/-- Processing one array element (leading whitespace, the value, trailing
whitespace) and handing the loop on to the remaining elements. -/
theorem arr_loop_elem (js : List Char)
    (rv : EsJsonAnalyzer → PRes (EsJson × EsJsonAnalyzer))
    (w : List Char) (v : SJson) (pw2 : List Char) (rest : SElems)
    (f k lp : Nat) (acc : List EsJson) (post : List Char)
    (hww : wsOk w = true) (hvv : validS v = true) (hpw2 : wsOk pw2 = true)
    (Hrv : ∀ (k : Nat) (post : List Char),
      js.drop k = renderS v ++ post → litSafe v post →
      ∃ st', rv (stat js k) = .ok (toEs v, st') ∧
        okSt js (k + (renderS v).length) st')
    (Hrest : ∀ (pw : List Char) (k lp : Nat) (acc : List EsJson)
      (post : List Char),
      wsOk pw = true →
      js.drop k = pw ++ (renderElemsTail rest ++ (']' :: post)) → lp < k →
      ∃ st', EsJsonAnalyzer.read_json_array_loop rv f (stat js k) acc lp
          = .ok (acc ++ toEsElems rest, st') ∧
        okSt js (k + pw.length + (renderElemsTail rest).length + 1) st')
    (hdrop : js.drop k
      = w ++ (renderS v ++ (pw2 ++ (renderElemsTail rest ++ (']' :: post)))))
    (hlp : lp < k) :
    ∃ st', EsJsonAnalyzer.read_json_array_loop rv (f + 1) (stat js k) acc lp
        = .ok (acc ++ (toEs v :: toEsElems rest), st')
      ∧ okSt js (k + w.length + (renderS v).length + pw2.length
          + (renderElemsTail rest).length + 1) st' := by
  obtain ⟨c0, r0, hR, hc0sp, hc0c, hc0b, hc0r⟩ := renderS_head v hvv
  have hdropw : js.drop k
      = w ++ (c0 :: (r0 ++ (pw2 ++ (renderElemsTail rest ++ (']' :: post)))))
    := by rw [hdrop, hR]; simp
  have hskip := skip_space_ws js w k c0 _ hww hdropw hc0sp
  have hdropR : js.drop (k + w.length)
      = renderS v ++ (pw2 ++ (renderElemsTail rest ++ (']' :: post))) :=
    drop_shift hdrop
  have hdropR' : js.drop (k + w.length)
      = c0 :: (r0 ++ (pw2 ++ (renderElemsTail rest ++ (']' :: post)))) := by
    rw [hdropR, hR]; simp
  have hchar : js.getD (k + w.length) ' ' = c0 := drop_getD ' ' hdropR'
  have hcont := cont_head_stop pw2 (renderElemsTail rest) ']' post hpw2
    (by decide) (elemsTail_head rest)
  obtain ⟨st2, hrv, hok2⟩ := Hrv (k + w.length) _ hdropR
    (litSafe_of_stop v _ (Or.inr hcont))
  have hdrop3 : js.drop (k + w.length + (renderS v).length)
      = pw2 ++ (renderElemsTail rest ++ (']' :: post)) := drop_shift hdropR
  have hk3 : k + w.length + (renderS v).length < js.length := by
    refine drop_ne_nil_lt ?_
    rw [hdrop3]
    obtain ⟨c3, r3, he, -⟩ := hcont
    rw [he]
    simp
  have hst2 : st2 = stat js (k + w.length + (renderS v).length) :=
    okSt_eq_stat hok2 hk3
  have hRpos := render_pos v hvv
  obtain ⟨st', hloop, hok'⟩ := Hrest pw2
    (k + w.length + (renderS v).length) k (acc ++ [toEs v]) post hpw2
    hdrop3 (by omega)
  rw [arr_loop_step rv f (stat js k) acc lp (by rw [stat_pos]; omega)]
  rw [hskip, stat_char, hchar, if_neg hc0c, if_neg hc0b, stat_pos, hrv]
  simp only [PRes.bind]
  rw [hst2, hloop]
  exact ⟨st', by simp, hok'⟩

/-- The array loop, entered just after an element: it consumes the
remaining `pw ++ renderElemsTail rest ++ "]"` and returns the elements
seen so far plus those of `rest`. -/
theorem arr_loop_tail (js : List Char)
    (rv : EsJsonAnalyzer → PRes (EsJson × EsJsonAnalyzer)) (cap : Nat)
    (Hrv : ∀ (v : SJson) (k : Nat) (post : List Char), validS v = true →
      fcost v ≤ cap → js.drop k = renderS v ++ post → litSafe v post →
      ∃ st', rv (stat js k) = .ok (toEs v, st') ∧
        okSt js (k + (renderS v).length) st') :
    ∀ (fuel : Nat) (rest : SElems) (pw : List Char) (k lp : Nat)
      (acc : List EsJson) (post : List Char),
      validElems rest = true → wsOk pw = true → maxcA rest ≤ cap →
      iterAT rest ≤ fuel →
      js.drop k = pw ++ (renderElemsTail rest ++ (']' :: post)) →
      lp < k →
      ∃ st', EsJsonAnalyzer.read_json_array_loop rv fuel (stat js k) acc lp
          = .ok (acc ++ toEsElems rest, st') ∧
        okSt js (k + pw.length + (renderElemsTail rest).length + 1) st' := by
  intro fuel
  induction fuel using Nat.strong_induction_on with
  | _ fuel ih =>
  intro rest pw k lp acc post hval hw hcap hfuel hdrop hlp
  cases rest with
  | nil =>
    obtain ⟨f, rfl⟩ : ∃ f, fuel = f + 1 :=
      ⟨fuel - 1, by simp [iterAT] at hfuel; omega⟩
    have hdrop' : js.drop k = pw ++ (']' :: post) := by
      simpa [renderElemsTail] using hdrop
    have hskip := skip_space_ws js pw k ']' post hw hdrop' (by decide)
    have hdropb : js.drop (k + pw.length) = ']' :: post := drop_shift hdrop'
    rw [arr_loop_step rv f (stat js k) acc lp (by rw [stat_pos]; omega)]
    rw [hskip, stat_char, drop_getD ' ' hdropb, if_neg (by decide),
      if_pos rfl]
    refine ⟨(EsJsonAnalyzer.goto_next_char (stat js (k + pw.length))).1,
      by simp [toEsElems], ?_⟩
    have hok := goto_okSt_stat js (k + pw.length)
    simpa [renderElemsTail] using hok
  | cons w v pw2 rest =>
    simp only [validElems, Bool.and_eq_true] at hval
    have hww : wsOk w = true := by tauto
    have hvv : validS v = true := by tauto
    have hpw2 : wsOk pw2 = true := by tauto
    have hrest : validElems rest = true := by tauto
    simp only [maxcA, max_le_iff] at hcap
    have hfuel' : iterAT rest + 2 ≤ fuel := by
      simp only [iterAT] at hfuel; omega
    obtain ⟨f2, rfl⟩ : ∃ f2, fuel = f2 + 1 + 1 :=
      ⟨fuel - 2, by omega⟩
    have hdropA : js.drop k = pw ++ (',' ::
        (w ++ (renderS v ++ (pw2 ++ (renderElemsTail rest
          ++ (']' :: post)))))) := by
      simpa [renderElemsTail] using hdrop
    have hskip := skip_space_ws js pw k ',' _ hw hdropA (by decide)
    have hdropc : js.drop (k + pw.length) = ',' ::
        (w ++ (renderS v ++ (pw2 ++ (renderElemsTail rest
          ++ (']' :: post))))) := drop_shift hdropA
    have hdropw : js.drop (k + pw.length + 1)
        = w ++ (renderS v ++ (pw2 ++ (renderElemsTail rest
          ++ (']' :: post)))) := by
      have := drop_shift (A := [',']) (by simpa using hdropc)
      simpa using this
    have hk1 : k + pw.length + 1 < js.length := by
      refine drop_ne_nil_lt ?_
      rw [hdropw]
      obtain ⟨c0, r0, hR, -⟩ := renderS_head v hvv
      rw [hR]
      simp
    rw [arr_loop_step rv (f2 + 1) (stat js k) acc lp
      (by rw [stat_pos]; omega)]
    rw [hskip, stat_char, drop_getD ' ' hdropc, if_pos rfl, stat_pos,
      goto_stat js (k + pw.length) hk1]
    obtain ⟨st', hloop, hok'⟩ := arr_loop_elem js rv w v pw2 rest f2
      (k + pw.length + 1) k acc post hww hvv hpw2
      (fun k' post' hd' hs' => Hrv v k' post' hvv (by tauto) hd' hs')
      (fun pw' k' lp' acc' post' hpw' hd' hl' =>
        ih f2 (by omega) rest pw' k' lp' acc' post' hrest hpw' (by tauto)
          (by omega) hd' hl')
      hdropw (by omega)
    refine ⟨st', by rw [hloop]; simp [toEsElems], ?_⟩
    rw [show k + pw.length
          + (renderElemsTail (SElems.cons w v pw2 rest)).length + 1
        = k + pw.length + 1 + w.length + (renderS v).length + pw2.length
          + (renderElemsTail rest).length + 1 from by
      simp [renderElemsTail]; omega]
    exact hok'

/-- The array loop, entered just after `[`: it consumes
`renderElems wsEnd elems ++ "]"` and returns the elements. -/
theorem arr_loop_head (js : List Char)
    (rv : EsJsonAnalyzer → PRes (EsJson × EsJsonAnalyzer)) (cap : Nat)
    (Hrv : ∀ (v : SJson) (k : Nat) (post : List Char), validS v = true →
      fcost v ≤ cap → js.drop k = renderS v ++ post → litSafe v post →
      ∃ st', rv (stat js k) = .ok (toEs v, st') ∧
        okSt js (k + (renderS v).length) st')
    (elems : SElems) (wsEnd : List Char) (fuel k lp : Nat)
    (acc : List EsJson) (post : List Char)
    (hval : validElems elems = true) (hws : wsOk wsEnd = true)
    (hcap : maxcA elems ≤ cap) (hfuel : iterA elems ≤ fuel)
    (hdrop : js.drop k = renderElems wsEnd elems ++ (']' :: post))
    (hlp : lp < k) :
    ∃ st', EsJsonAnalyzer.read_json_array_loop rv fuel (stat js k) acc lp
        = .ok (acc ++ toEsElems elems, st')
      ∧ okSt js (k + (renderElems wsEnd elems).length + 1) st' := by
  cases elems with
  | nil =>
    obtain ⟨f, rfl⟩ : ∃ f, fuel = f + 1 :=
      ⟨fuel - 1, by simp [iterA] at hfuel; omega⟩
    have hdrop' : js.drop k = wsEnd ++ (']' :: post) := by
      simpa [renderElems] using hdrop
    have hskip := skip_space_ws js wsEnd k ']' post hws hdrop' (by decide)
    have hdropb : js.drop (k + wsEnd.length) = ']' :: post :=
      drop_shift hdrop'
    rw [arr_loop_step rv f (stat js k) acc lp (by rw [stat_pos]; omega)]
    rw [hskip, stat_char, drop_getD ' ' hdropb, if_neg (by decide),
      if_pos rfl]
    refine ⟨(EsJsonAnalyzer.goto_next_char (stat js (k + wsEnd.length))).1,
      by simp [toEsElems], ?_⟩
    have hok := goto_okSt_stat js (k + wsEnd.length)
    simpa [renderElems] using hok
  | cons w v pw2 rest =>
    simp only [validElems, Bool.and_eq_true] at hval
    have hww : wsOk w = true := by tauto
    have hvv : validS v = true := by tauto
    have hpw2 : wsOk pw2 = true := by tauto
    have hrest : validElems rest = true := by tauto
    simp only [maxcA, max_le_iff] at hcap
    have hfuel' : iterAT rest + 1 ≤ fuel := by
      simp only [iterA] at hfuel; omega
    obtain ⟨f1, rfl⟩ : ∃ f1, fuel = f1 + 1 := ⟨fuel - 1, by omega⟩
    have hdropw : js.drop k
        = w ++ (renderS v ++ (pw2 ++ (renderElemsTail rest
          ++ (']' :: post)))) := by
      simpa [renderElems] using hdrop
    obtain ⟨st', hloop, hok'⟩ := arr_loop_elem js rv w v pw2 rest f1 k lp
      acc post hww hvv hpw2
      (fun k' post' hd' hs' => Hrv v k' post' hvv (by tauto) hd' hs')
      (fun pw' k' lp' acc' post' hpw' hd' hl' =>
        arr_loop_tail js rv cap Hrv f1 rest pw' k' lp' acc' post' hrest
          hpw' (by tauto) (by omega) hd' hl')
      hdropw hlp
    refine ⟨st', by rw [hloop]; simp [toEsElems], ?_⟩
    rw [show k + (renderElems wsEnd (SElems.cons w v pw2 rest)).length + 1
        = k + w.length + (renderS v).length + pw2.length
          + (renderElemsTail rest).length + 1 from by
      simp [renderElems]; omega]
    exact hok'
/-- Zeta-expanded body of `read_json_key_value`. -/
theorem kv_step (rv : EsJsonAnalyzer → PRes (EsJson × EsJsonAnalyzer))
    (st : EsJsonAnalyzer) :
    EsJsonAnalyzer.read_json_key_value rv st
      = (match EsJsonAnalyzer.read_json_string
            (EsJsonAnalyzer.skip_space st) with
        | none => .panic
        | some (key, st2) =>
          if (EsJsonAnalyzer.skip_space st2).character = ':' then
            (rv (EsJsonAnalyzer.skip_space
                (EsJsonAnalyzer.goto_next_char
                  (EsJsonAnalyzer.skip_space st2)).1)).bind
              fun (v, st5) => .ok ((String.mk key, v), st5)
          else .panic) := by
  rw [EsJsonAnalyzer.read_json_key_value]

/-- `read_json_key_value` on one well-formed field: it returns the quoted
key verbatim and the parsed value, leaving the cursor right after the
value. -/
theorem read_json_key_value_run (js : List Char)
    (rv : EsJsonAnalyzer → PRes (EsJson × EsJsonAnalyzer))
    (key wa wb : List Char) (v : SJson) (k : Nat) (post : List Char)
    (hkey : strBodyOk key = true) (hwa : wsOk wa = true)
    (hwb : wsOk wb = true) (hvv : validS v = true)
    (Hrv : ∀ (k : Nat) (post : List Char),
      js.drop k = renderS v ++ post → litSafe v post →
      ∃ st', rv (stat js k) = .ok (toEs v, st') ∧
        okSt js (k + (renderS v).length) st')
    (hdrop : js.drop k = (quoteChar :: (key ++ [quoteChar]))
      ++ (wa ++ (':' :: (wb ++ (renderS v ++ post)))))
    (hpost : ∃ c r, post = c :: r ∧
      EsJsonAnalyzer.STOP_CHARS.contains c = true) :
    ∃ st', EsJsonAnalyzer.read_json_key_value rv (stat js k)
        = .ok ((String.mk (quoteChar :: (key ++ [quoteChar])), toEs v), st')
      ∧ okSt js (k + key.length + 2 + wa.length + 1 + wb.length
          + (renderS v).length) st' := by
  obtain ⟨c0, r0, hR, hc0sp, hc0c, hc0b, hc0r⟩ := renderS_head v hvv
  have hdropq : js.drop k = quoteChar :: (key ++ (quoteChar ::
      (wa ++ (':' :: (wb ++ (renderS v ++ post)))))) := by
    simpa using hdrop
  have hskip0 : EsJsonAnalyzer.skip_space (stat js k) = stat js k := by
    have := skip_space_ws js [] k quoteChar
      (key ++ (quoteChar :: (wa ++ (':' :: (wb ++ (renderS v ++ post))))))
      rfl (by simpa using hdropq) (by decide)
    simpa using this
  obtain ⟨st2, htok, hok2⟩ := read_json_string_token js key
    (wa ++ (':' :: (wb ++ (renderS v ++ post)))) k hkey hdrop
  have h2 : js.drop (k + key.length + 2)
      = wa ++ (':' :: (wb ++ (renderS v ++ post))) := by
    have h := drop_shift hdrop
    rw [show k + (quoteChar :: (key ++ [quoteChar])).length
        = k + key.length + 2 from by simp; omega] at h
    exact h
  have hk2 : k + key.length + 2 < js.length :=
    drop_ne_nil_lt (by rw [h2]; simp)
  have hst2 : st2 = stat js (k + key.length + 2) := okSt_eq_stat hok2 hk2
  have hskip2 := skip_space_ws js wa (k + key.length + 2) ':'
    (wb ++ (renderS v ++ post)) hwa h2 (by decide)
  have h3 : js.drop (k + key.length + 2 + wa.length)
      = ':' :: (wb ++ (renderS v ++ post)) := drop_shift h2
  have hchar3 : js.getD (k + key.length + 2 + wa.length) ' ' = ':' :=
    drop_getD ' ' h3
  have h4 : js.drop (k + key.length + 2 + wa.length + 1)
      = wb ++ (renderS v ++ post) := by
    have := drop_shift (A := [':']) (by simpa using h3)
    simpa using this
  have hk3 : k + key.length + 2 + wa.length + 1 < js.length := by
    refine drop_ne_nil_lt ?_
    rw [h4, hR]
    simp
  have h4' : js.drop (k + key.length + 2 + wa.length + 1)
      = wb ++ (c0 :: (r0 ++ post)) := by
    rw [h4, hR]
    simp
  have hskip3 := skip_space_ws js wb (k + key.length + 2 + wa.length + 1)
    c0 (r0 ++ post) hwb h4' hc0sp
  have h5 : js.drop (k + key.length + 2 + wa.length + 1 + wb.length)
      = renderS v ++ post := drop_shift h4
  obtain ⟨st5, hrv, hok5⟩ := Hrv (k + key.length + 2 + wa.length + 1
    + wb.length) post h5 (litSafe_of_stop v post (Or.inr hpost))
  refine ⟨st5, ?_, hok5⟩
  rw [kv_step rv (stat js k), hskip0, htok]
  simp only []
  rw [hst2, hskip2, stat_char, hchar3, if_pos rfl,
    goto_stat js (k + key.length + 2 + wa.length) hk3, hskip3, hrv]
  simp only [PRes.bind]

/-- Processing one object field and handing the loop on to the remaining
fields. -/
theorem obj_loop_elem (js : List Char)
    (rkv : EsJsonAnalyzer → PRes ((String × EsJson) × EsJsonAnalyzer))
    (w key wa wb : List Char) (v : SJson) (pw2 : List Char) (rest : SFields)
    (f k lp : Nat) (obj : List (String × EsJson)) (post : List Char)
    (hww : wsOk w = true) (hpw2 : wsOk pw2 = true)
    (Hkv : ∀ (k : Nat) (post : List Char),
      js.drop k = (quoteChar :: (key ++ [quoteChar]))
        ++ (wa ++ (':' :: (wb ++ (renderS v ++ post)))) →
      (∃ c r, post = c :: r ∧
        EsJsonAnalyzer.STOP_CHARS.contains c = true) →
      ∃ st', rkv (stat js k)
          = .ok ((String.mk (quoteChar :: (key ++ [quoteChar])), toEs v),
            st')
        ∧ okSt js (k + key.length + 2 + wa.length + 1 + wb.length
            + (renderS v).length) st')
    (Hrest : ∀ (pw : List Char) (k lp : Nat)
      (obj : List (String × EsJson)) (post : List Char),
      wsOk pw = true →
      js.drop k = pw ++ (renderFieldsTail rest ++ (rbraceChar :: post)) →
      lp < k →
      ∃ st', EsJsonAnalyzer.read_json_object_loop rkv f (stat js k) obj lp
          = .ok (obj ++ toEsFields rest, st') ∧
        okSt js (k + pw.length + (renderFieldsTail rest).length + 1) st')
    (hdrop : js.drop k
      = w ++ ((quoteChar :: (key ++ [quoteChar]))
        ++ (wa ++ (':' :: (wb ++ (renderS v
          ++ (pw2 ++ (renderFieldsTail rest ++ (rbraceChar :: post)))))))))
    (hlp : lp < k) :
    ∃ st', EsJsonAnalyzer.read_json_object_loop rkv (f + 1) (stat js k)
        obj lp
      = .ok (obj ++ ((String.mk (quoteChar :: (key ++ [quoteChar])),
          toEs v) :: toEsFields rest), st')
      ∧ okSt js (k + w.length + key.length + 2 + wa.length + 1 + wb.length
          + (renderS v).length + pw2.length
          + (renderFieldsTail rest).length + 1) st' := by
  have hdropTOK : js.drop k = w ++ (quoteChar :: (key ++ (quoteChar ::
      (wa ++ (':' :: (wb ++ (renderS v ++ (pw2 ++ (renderFieldsTail rest
        ++ (rbraceChar :: post)))))))))) := by
    simpa using hdrop
  have hskip := skip_space_ws js w k quoteChar _ hww hdropTOK (by decide)
  have d1 : js.drop (k + w.length)
      = (quoteChar :: (key ++ [quoteChar]))
        ++ (wa ++ (':' :: (wb ++ (renderS v
          ++ (pw2 ++ (renderFieldsTail rest ++ (rbraceChar :: post)))))))
    := drop_shift hdrop
  have d1c : js.drop (k + w.length) = quoteChar :: (key ++ (quoteChar ::
      (wa ++ (':' :: (wb ++ (renderS v ++ (pw2 ++ (renderFieldsTail rest
        ++ (rbraceChar :: post))))))))) := by
    simpa using d1
  have hpostKV := cont_head_stop pw2 (renderFieldsTail rest) rbraceChar
    post hpw2 (by decide) (fieldsTail_head rest)
  obtain ⟨st5, hkv, hok5⟩ := Hkv (k + w.length) _ d1 hpostKV
  have d2 : js.drop (k + w.length + key.length + 2)
      = wa ++ (':' :: (wb ++ (renderS v ++ (pw2 ++ (renderFieldsTail rest
        ++ (rbraceChar :: post)))))) := by
    have h := drop_shift d1
    rw [show k + w.length + (quoteChar :: (key ++ [quoteChar])).length
        = k + w.length + key.length + 2 from by simp; omega] at h
    exact h
  have d3 : js.drop (k + w.length + key.length + 2 + wa.length)
      = ':' :: (wb ++ (renderS v ++ (pw2 ++ (renderFieldsTail rest
        ++ (rbraceChar :: post))))) := drop_shift d2
  have d4 : js.drop (k + w.length + key.length + 2 + wa.length + 1)
      = wb ++ (renderS v ++ (pw2 ++ (renderFieldsTail rest
        ++ (rbraceChar :: post)))) := by
    have := drop_shift (A := [':']) (by simpa using d3)
    simpa using this
  have d5 : js.drop (k + w.length + key.length + 2 + wa.length + 1
      + wb.length) = renderS v ++ (pw2 ++ (renderFieldsTail rest
        ++ (rbraceChar :: post))) := drop_shift d4
  have d6 : js.drop (k + w.length + key.length + 2 + wa.length + 1
      + wb.length + (renderS v).length)
      = pw2 ++ (renderFieldsTail rest ++ (rbraceChar :: post)) :=
    drop_shift d5
  have hkEnd : k + w.length + key.length + 2 + wa.length + 1 + wb.length
      + (renderS v).length < js.length := by
    refine drop_ne_nil_lt ?_
    obtain ⟨c3, r3, he, -⟩ := hpostKV
    rw [d6, he]
    simp
  have hst5 : st5 = stat js (k + w.length + key.length + 2 + wa.length + 1
      + wb.length + (renderS v).length) := okSt_eq_stat hok5 hkEnd
  obtain ⟨st', hloop, hok'⟩ := Hrest pw2
    (k + w.length + key.length + 2 + wa.length + 1 + wb.length
      + (renderS v).length) k
    (obj ++ [(String.mk (quoteChar :: (key ++ [quoteChar])), toEs v)])
    post hpw2 d6 (by omega)
  rw [obj_loop_step rkv f (stat js k) obj lp (by rw [stat_pos]; omega)]
  rw [hskip, stat_char, drop_getD ' ' d1c, if_neg (by decide),
    if_neg (by decide), stat_pos, hkv]
  simp only [PRes.bind]
  rw [hst5, hloop]
  exact ⟨st', by simp, hok'⟩

/-- The object loop, entered just after a field. -/
theorem obj_loop_tail (js : List Char)
    (rv : EsJsonAnalyzer → PRes (EsJson × EsJsonAnalyzer)) (cap : Nat)
    (Hrv : ∀ (v : SJson) (k : Nat) (post : List Char), validS v = true →
      fcost v ≤ cap → js.drop k = renderS v ++ post → litSafe v post →
      ∃ st', rv (stat js k) = .ok (toEs v, st') ∧
        okSt js (k + (renderS v).length) st') :
    ∀ (fuel : Nat) (rest : SFields) (pw : List Char) (k lp : Nat)
      (obj : List (String × EsJson)) (post : List Char),
      validFields rest = true → wsOk pw = true → maxcO rest ≤ cap →
      iterOT rest ≤ fuel →
      js.drop k = pw ++ (renderFieldsTail rest ++ (rbraceChar :: post)) →
      lp < k →
      ∃ st', EsJsonAnalyzer.read_json_object_loop
          (EsJsonAnalyzer.read_json_key_value rv) fuel (stat js k) obj lp
          = .ok (obj ++ toEsFields rest, st') ∧
        okSt js (k + pw.length + (renderFieldsTail rest).length + 1) st' := by
  intro fuel
  induction fuel using Nat.strong_induction_on with
  | _ fuel ih =>
  intro rest pw k lp obj post hval hw hcap hfuel hdrop hlp
  cases rest with
  | nil =>
    obtain ⟨f, rfl⟩ : ∃ f, fuel = f + 1 :=
      ⟨fuel - 1, by simp [iterOT] at hfuel; omega⟩
    have hdrop' : js.drop k = pw ++ (rbraceChar :: post) := by
      simpa [renderFieldsTail] using hdrop
    have hskip := skip_space_ws js pw k rbraceChar post hw hdrop'
      (by decide)
    have hdropb : js.drop (k + pw.length) = rbraceChar :: post :=
      drop_shift hdrop'
    rw [obj_loop_step (EsJsonAnalyzer.read_json_key_value rv) f
      (stat js k) obj lp (by rw [stat_pos]; omega)]
    rw [hskip, stat_char, drop_getD ' ' hdropb, if_neg (by decide),
      if_pos rfl]
    refine ⟨(EsJsonAnalyzer.goto_next_char (stat js (k + pw.length))).1,
      by simp [toEsFields], ?_⟩
    have hok := goto_okSt_stat js (k + pw.length)
    simpa [renderFieldsTail] using hok
  | cons w key wa wb v pw2 rest =>
    simp only [validFields, Bool.and_eq_true] at hval
    have hww : wsOk w = true := by tauto
    have hkey : strBodyOk key = true := by tauto
    have hwa : wsOk wa = true := by tauto
    have hwb : wsOk wb = true := by tauto
    have hvv : validS v = true := by tauto
    have hpw2 : wsOk pw2 = true := by tauto
    have hrest : validFields rest = true := by tauto
    simp only [maxcO, max_le_iff] at hcap
    have hfuel' : iterOT rest + 2 ≤ fuel := by
      simp only [iterOT] at hfuel; omega
    obtain ⟨f2, rfl⟩ : ∃ f2, fuel = f2 + 1 + 1 := ⟨fuel - 2, by omega⟩
    have hdropA : js.drop k = pw ++ (',' ::
        (w ++ ((quoteChar :: (key ++ [quoteChar]))
          ++ (wa ++ (':' :: (wb ++ (renderS v
            ++ (pw2 ++ (renderFieldsTail rest
              ++ (rbraceChar :: post)))))))))) := by
      simpa [renderFieldsTail] using hdrop
    have hskip := skip_space_ws js pw k ',' _ hw hdropA (by decide)
    have hdropc : js.drop (k + pw.length) = ',' ::
        (w ++ ((quoteChar :: (key ++ [quoteChar]))
          ++ (wa ++ (':' :: (wb ++ (renderS v
            ++ (pw2 ++ (renderFieldsTail rest
              ++ (rbraceChar :: post))))))))) := drop_shift hdropA
    have hdropw : js.drop (k + pw.length + 1)
        = w ++ ((quoteChar :: (key ++ [quoteChar]))
          ++ (wa ++ (':' :: (wb ++ (renderS v
            ++ (pw2 ++ (renderFieldsTail rest
              ++ (rbraceChar :: post)))))))) := by
      have := drop_shift (A := [',']) (by simpa using hdropc)
      simpa using this
    have hk1 : k + pw.length + 1 < js.length := by
      refine drop_ne_nil_lt ?_
      rw [hdropw]
      simp
    rw [obj_loop_step (EsJsonAnalyzer.read_json_key_value rv) (f2 + 1)
      (stat js k) obj lp (by rw [stat_pos]; omega)]
    rw [hskip, stat_char, drop_getD ' ' hdropc, if_pos rfl, stat_pos,
      goto_stat js (k + pw.length) hk1]
    obtain ⟨st', hloop, hok'⟩ := obj_loop_elem js
      (EsJsonAnalyzer.read_json_key_value rv) w key wa wb v pw2 rest f2
      (k + pw.length + 1) k obj post hww hpw2
      (fun k' post' hd' hp' => read_json_key_value_run js rv key wa wb v
        k' post' hkey hwa hwb hvv
        (fun k2 post2 hd2 hs2 => Hrv v k2 post2 hvv (by tauto) hd2 hs2)
        hd' hp')
      (fun pw' k' lp' obj' post' hpw' hd' hl' =>
        ih f2 (by omega) rest pw' k' lp' obj' post' hrest hpw' (by tauto)
          (by omega) hd' hl')
      hdropw (by omega)
    refine ⟨st', by rw [hloop]; simp [toEsFields], ?_⟩
    rw [show k + pw.length
          + (renderFieldsTail (SFields.cons w key wa wb v pw2 rest)).length
          + 1
        = k + pw.length + 1 + w.length + key.length + 2 + wa.length + 1
          + wb.length + (renderS v).length + pw2.length
          + (renderFieldsTail rest).length + 1 from by
      simp [renderFieldsTail]; omega]
    exact hok'

/-- The object loop, entered just after `{`. -/
theorem obj_loop_head (js : List Char)
    (rv : EsJsonAnalyzer → PRes (EsJson × EsJsonAnalyzer)) (cap : Nat)
    (Hrv : ∀ (v : SJson) (k : Nat) (post : List Char), validS v = true →
      fcost v ≤ cap → js.drop k = renderS v ++ post → litSafe v post →
      ∃ st', rv (stat js k) = .ok (toEs v, st') ∧
        okSt js (k + (renderS v).length) st')
    (fields : SFields) (wsEnd : List Char) (fuel k lp : Nat)
    (obj : List (String × EsJson)) (post : List Char)
    (hval : validFields fields = true) (hws : wsOk wsEnd = true)
    (hcap : maxcO fields ≤ cap) (hfuel : iterO fields ≤ fuel)
    (hdrop : js.drop k
      = renderFields wsEnd fields ++ (rbraceChar :: post))
    (hlp : lp < k) :
    ∃ st', EsJsonAnalyzer.read_json_object_loop
        (EsJsonAnalyzer.read_json_key_value rv) fuel (stat js k) obj lp
        = .ok (obj ++ toEsFields fields, st')
      ∧ okSt js (k + (renderFields wsEnd fields).length + 1) st' := by
  cases fields with
  | nil =>
    obtain ⟨f, rfl⟩ : ∃ f, fuel = f + 1 :=
      ⟨fuel - 1, by simp [iterO] at hfuel; omega⟩
    have hdrop' : js.drop k = wsEnd ++ (rbraceChar :: post) := by
      simpa [renderFields] using hdrop
    have hskip := skip_space_ws js wsEnd k rbraceChar post hws hdrop'
      (by decide)
    have hdropb : js.drop (k + wsEnd.length) = rbraceChar :: post :=
      drop_shift hdrop'
    rw [obj_loop_step (EsJsonAnalyzer.read_json_key_value rv) f
      (stat js k) obj lp (by rw [stat_pos]; omega)]
    rw [hskip, stat_char, drop_getD ' ' hdropb, if_neg (by decide),
      if_pos rfl]
    refine ⟨(EsJsonAnalyzer.goto_next_char (stat js (k + wsEnd.length))).1,
      by simp [toEsFields], ?_⟩
    have hok := goto_okSt_stat js (k + wsEnd.length)
    simpa [renderFields] using hok
  | cons w key wa wb v pw2 rest =>
    simp only [validFields, Bool.and_eq_true] at hval
    have hww : wsOk w = true := by tauto
    have hkey : strBodyOk key = true := by tauto
    have hwa : wsOk wa = true := by tauto
    have hwb : wsOk wb = true := by tauto
    have hvv : validS v = true := by tauto
    have hpw2 : wsOk pw2 = true := by tauto
    have hrest : validFields rest = true := by tauto
    simp only [maxcO, max_le_iff] at hcap
    have hfuel' : iterOT rest + 1 ≤ fuel := by
      simp only [iterO] at hfuel; omega
    obtain ⟨f1, rfl⟩ : ∃ f1, fuel = f1 + 1 := ⟨fuel - 1, by omega⟩
    have hdropw : js.drop k
        = w ++ ((quoteChar :: (key ++ [quoteChar]))
          ++ (wa ++ (':' :: (wb ++ (renderS v
            ++ (pw2 ++ (renderFieldsTail rest
              ++ (rbraceChar :: post)))))))) := by
      simpa [renderFields] using hdrop
    obtain ⟨st', hloop, hok'⟩ := obj_loop_elem js
      (EsJsonAnalyzer.read_json_key_value rv) w key wa wb v pw2 rest f1
      k lp obj post hww hpw2
      (fun k' post' hd' hp' => read_json_key_value_run js rv key wa wb v
        k' post' hkey hwa hwb hvv
        (fun k2 post2 hd2 hs2 => Hrv v k2 post2 hvv (by tauto) hd2 hs2)
        hd' hp')
      (fun pw' k' lp' obj' post' hpw' hd' hl' =>
        obj_loop_tail js rv cap Hrv f1 rest pw' k' lp' obj' post' hrest
          hpw' (by tauto) (by omega) hd' hl')
      hdropw hlp
    refine ⟨st', by rw [hloop]; simp [toEsFields], ?_⟩
    rw [show k
          + (renderFields wsEnd (SFields.cons w key wa wb v pw2 rest)).length
          + 1
        = k + w.length + key.length + 2 + wa.length + 1 + wb.length
          + (renderS v).length + pw2.length
          + (renderFieldsTail rest).length + 1 from by
      simp [renderFields]; omega]
    exact hok'

theorem fcost_pos (v : SJson) : 1 ≤ fcost v := by
  cases v <;> (simp only [fcost]; omega)

/-- `read_json_value` parses any well-formed token whose cost fits in the
fuel, producing exactly the `EsJson` tree of the text and leaving the
cursor just past the token. -/
theorem read_json_value_run (js : List Char) :
    ∀ (fuel : Nat) (v : SJson) (k : Nat) (post : List Char),
      validS v = true → fcost v ≤ fuel →
      js.drop k = renderS v ++ post → litSafe v post →
      ∃ st', EsJsonAnalyzer.read_json_value fuel (stat js k)
          = .ok (toEs v, st') ∧ okSt js (k + (renderS v).length) st' := by
  intro fuel
  induction fuel using Nat.strong_induction_on with
  | _ fuel ih =>
  intro v k post hv hf hdrop hsafe
  have hpos : 1 ≤ fcost v := fcost_pos v
  obtain ⟨f, rfl⟩ : ∃ f, fuel = f + 1 := ⟨fuel - 1, by omega⟩
  cases v with
  | jstr body =>
    have hb : strBodyOk body = true := hv
    obtain ⟨st', htok, hok⟩ := read_json_string_token js body post k hb
      hdrop
    have hchar : js.getD k ' ' = quoteChar :=
      drop_getD ' ' (by simpa using hdrop)
    refine ⟨st', ?_, ?_⟩
    · rw [EsJsonAnalyzer.read_json_value]
      rw [stat_char, hchar, if_pos rfl, htok]
      simp only []
      rfl
    · rw [show k + (renderS (SJson.jstr body)).length
          = k + body.length + 2 from by simp [renderS]; omega]
      exact hok
  | jlit cs =>
    have hl : litOk cs = true := hv
    cases cs with
    | nil => simp [litOk] at hl
    | cons c0 r0 =>
      simp only [litOk, Bool.and_eq_true, decide_eq_true_eq] at hl
      have hcq : ¬(c0 = quoteChar) := by tauto
      have hcl : ¬(c0 = lbraceChar) := by tauto
      have hcb : ¬(c0 = '[') := by tauto
      have hallstop : ∀ c2 ∈ c0 :: r0,
          ¬(EsJsonAnalyzer.STOP_CHARS.contains c2 = true) := by
        have h := hl.1
        rw [List.all_eq_true] at h
        intro c2 hc2
        have := h c2 hc2
        simpa using this
      have hchar : js.getD k ' ' = c0 :=
        drop_getD ' ' (by simpa using hdrop)
      obtain ⟨st', hlit, hok⟩ := read_json_literal_go_run js (c0 :: r0) k
        [] post hallstop hdrop hsafe (Or.inl (by simp))
      have hlit' : EsJsonAnalyzer.read_json_literal (stat js k) []
          = ([] ++ (c0 :: r0), st') := by
        rw [EsJsonAnalyzer.read_json_literal]
        show EsJsonAnalyzer.read_json_literal_go (js.length - k + 1)
          (stat js k) [] = _
        exact hlit
      refine ⟨st', ?_, ?_⟩
      · rw [EsJsonAnalyzer.read_json_value]
        rw [stat_char, hchar, if_neg hcq, if_neg hcl, if_neg hcb, hlit']
        simp [toEs]
      · exact hok
  | jarr wsEnd elems =>
    simp only [validS, Bool.and_eq_true] at hv
    have hws : wsOk wsEnd = true := hv.1
    have hel : validElems elems = true := hv.2
    have hm : max (iterA elems) (maxcA elems) ≤ f := by
      simp only [fcost] at hf; omega
    have hitA : iterA elems ≤ f := le_trans (le_max_left _ _) hm
    have hcA : maxcA elems ≤ f := le_trans (le_max_right _ _) hm
    have hdropc : js.drop k
        = '[' :: (renderElems wsEnd elems ++ (']' :: post)) := by
      simpa [renderS] using hdrop
    have hchar : js.getD k ' ' = '[' := drop_getD ' ' hdropc
    have hd1 : js.drop (k + 1)
        = renderElems wsEnd elems ++ (']' :: post) := by
      have := drop_shift (A := ['[']) (by simpa using hdropc)
      simpa using this
    have hk1 : k + 1 < js.length := drop_ne_nil_lt (by rw [hd1]; simp)
    obtain ⟨st', hloop, hok⟩ := arr_loop_head js
      (EsJsonAnalyzer.read_json_value f) f
      (fun v' k' post' hv' hf' hd' hs' =>
        ih f (by omega) v' k' post' hv' hf' hd' hs')
      elems wsEnd f (k + 1) 0 [] post hel hws hcA hitA hd1 (by omega)
    refine ⟨st', ?_, ?_⟩
    · rw [EsJsonAnalyzer.read_json_value]
      rw [stat_char, hchar, if_neg (by decide), if_neg (by decide),
        if_pos rfl, goto_stat js k hk1, hloop]
      simp only [PRes.bind]
      simp [toEs]
    · rw [show k + (renderS (SJson.jarr wsEnd elems)).length
          = k + 1 + (renderElems wsEnd elems).length + 1 from by
        simp [renderS]; omega]
      exact hok
  | jobj wsEnd fields =>
    simp only [validS, Bool.and_eq_true] at hv
    have hws : wsOk wsEnd = true := hv.1
    have hfl : validFields fields = true := hv.2
    have hm : max (iterO fields) (maxcO fields) ≤ f := by
      simp only [fcost] at hf; omega
    have hitO : iterO fields ≤ f := le_trans (le_max_left _ _) hm
    have hcO : maxcO fields ≤ f := le_trans (le_max_right _ _) hm
    have hdropc : js.drop k
        = lbraceChar :: (renderFields wsEnd fields
          ++ (rbraceChar :: post)) := by
      simpa [renderS] using hdrop
    have hchar : js.getD k ' ' = lbraceChar := drop_getD ' ' hdropc
    have hd1 : js.drop (k + 1)
        = renderFields wsEnd fields ++ (rbraceChar :: post) := by
      have := drop_shift (A := [lbraceChar]) (by simpa using hdropc)
      simpa using this
    have hk1 : k + 1 < js.length := drop_ne_nil_lt (by rw [hd1]; simp)
    obtain ⟨st', hloop, hok⟩ := obj_loop_head js
      (EsJsonAnalyzer.read_json_value f) f
      (fun v' k' post' hv' hf' hd' hs' =>
        ih f (by omega) v' k' post' hv' hf' hd' hs')
      fields wsEnd f (k + 1) 0 [] post hfl hws hcO hitO hd1 (by omega)
    refine ⟨st', ?_, ?_⟩
    · rw [EsJsonAnalyzer.read_json_value]
      rw [stat_char, hchar, if_neg (by decide), if_pos rfl,
        goto_stat js k hk1, hloop]
      simp only [PRes.bind]
      simp [toEs]
    · rw [show k + (renderS (SJson.jobj wsEnd fields)).length
          = k + 1 + (renderFields wsEnd fields).length + 1 from by
        simp [renderS]; omega]
      exact hok

theorem iterAT_le (es : SElems) (h : validElems es = true) :
    iterAT es ≤ 2 * (renderElemsTail es).length + 1 := by
  cases es with
  | nil => simp [iterAT, renderElemsTail]
  | cons w v pw rest =>
    have hrest : validElems rest = true := by
      simp only [validElems, Bool.and_eq_true] at h; tauto
    have h1 := iterAT_le rest hrest
    simp only [iterAT, renderElemsTail, List.length_cons,
      List.length_append]
    omega

theorem iterA_le (es : SElems) (wsEnd : List Char)
    (h : validElems es = true) :
    iterA es ≤ 2 * (renderElems wsEnd es).length + 1 := by
  cases es with
  | nil => simp [iterA, renderElems]
  | cons w v pw rest =>
    have hrest : validElems rest = true := by
      simp only [validElems, Bool.and_eq_true] at h; tauto
    have hvv : validS v = true := by
      simp only [validElems, Bool.and_eq_true] at h; tauto
    have h1 := iterAT_le rest hrest
    have h2 := render_pos v hvv
    simp only [iterA, renderElems, List.length_append]
    omega

theorem iterOT_le (fs : SFields) (h : validFields fs = true) :
    iterOT fs ≤ 2 * (renderFieldsTail fs).length + 1 := by
  cases fs with
  | nil => simp [iterOT, renderFieldsTail]
  | cons w key wa wb v pw rest =>
    have hrest : validFields rest = true := by
      simp only [validFields, Bool.and_eq_true] at h; tauto
    have h1 := iterOT_le rest hrest
    simp only [iterOT, renderFieldsTail, List.length_cons,
      List.length_append]
    omega

theorem iterO_le (fs : SFields) (wsEnd : List Char)
    (h : validFields fs = true) :
    iterO fs ≤ 2 * (renderFields wsEnd fs).length + 1 := by
  cases fs with
  | nil => simp [iterO, renderFields]
  | cons w key wa wb v pw rest =>
    have hrest : validFields rest = true := by
      simp only [validFields, Bool.and_eq_true] at h; tauto
    have h1 := iterOT_le rest hrest
    simp only [iterO, renderFields, List.length_cons, List.length_append]
    omega

mutual

theorem fcost_le (v : SJson) (hv : validS v = true) :
    fcost v ≤ 3 * (renderS v).length := by
  cases v with
  | jstr body =>
    simp only [fcost, renderS, List.length_cons, List.length_append]
    omega
  | jlit cs =>
    have h1 := render_pos (SJson.jlit cs) hv
    simp only [fcost, renderS]
    simp only [renderS] at h1
    omega
  | jarr wsEnd elems =>
    have hel : validElems elems = true := by
      simp only [validS, Bool.and_eq_true] at hv; tauto
    have h1 := iterA_le elems wsEnd hel
    have h2 : maxcA elems ≤ 3 * (renderElems wsEnd elems).length := by
      cases elems with
      | nil => simp [maxcA]
      | cons w v2 pw rest =>
        have hvv : validS v2 = true := by
          simp only [validElems, Bool.and_eq_true] at hel; tauto
        have hrest : validElems rest = true := by
          simp only [validElems, Bool.and_eq_true] at hel; tauto
        have h3 := fcost_le v2 hvv
        have h4 := maxcA_le rest hrest
        simp only [maxcA, renderElems, List.length_append]
        omega
    simp only [fcost, renderS, List.length_cons, List.length_append]
    omega
  | jobj wsEnd fields =>
    have hfl : validFields fields = true := by
      simp only [validS, Bool.and_eq_true] at hv; tauto
    have h1 := iterO_le fields wsEnd hfl
    have h2 : maxcO fields ≤ 3 * (renderFields wsEnd fields).length := by
      cases fields with
      | nil => simp [maxcO]
      | cons w key wa wb v2 pw rest =>
        have hvv : validS v2 = true := by
          simp only [validFields, Bool.and_eq_true] at hfl; tauto
        have hrest : validFields rest = true := by
          simp only [validFields, Bool.and_eq_true] at hfl; tauto
        have h3 := fcost_le v2 hvv
        have h4 := maxcO_le rest hrest
        simp only [maxcO, renderFields, List.length_cons,
          List.length_append]
        omega
    simp only [fcost, renderS, List.length_cons, List.length_append]
    omega

theorem maxcA_le (es : SElems) (h : validElems es = true) :
    maxcA es ≤ 3 * (renderElemsTail es).length := by
  cases es with
  | nil => simp [maxcA]
  | cons w v pw rest =>
    have hvv : validS v = true := by
      simp only [validElems, Bool.and_eq_true] at h; tauto
    have hrest : validElems rest = true := by
      simp only [validElems, Bool.and_eq_true] at h; tauto
    have h1 := fcost_le v hvv
    have h2 := maxcA_le rest hrest
    simp only [maxcA, renderElemsTail, List.length_cons,
      List.length_append]
    omega

theorem maxcO_le (fs : SFields) (h : validFields fs = true) :
    maxcO fs ≤ 3 * (renderFieldsTail fs).length := by
  cases fs with
  | nil => simp [maxcO]
  | cons w key wa wb v pw rest =>
    have hvv : validS v = true := by
      simp only [validFields, Bool.and_eq_true] at h; tauto
    have hrest : validFields rest = true := by
      simp only [validFields, Bool.and_eq_true] at h; tauto
    have h1 := fcost_le v hvv
    have h2 := maxcO_le rest hrest
    simp only [maxcO, renderFieldsTail, List.length_cons,
      List.length_append]
    omega

end

mutual

/-- Re-serializing the parsed tree yields the original text with the
inter-token whitespace removed (strings, literals and keys verbatim, key
order preserved). -/
theorem to_json_toEs (v : SJson) :
    to_json (toEs v) = String.mk (stripS v) := by
  cases v with
  | jstr body => simp only [toEs, to_json, stripS]
  | jlit cs => simp only [toEs, to_json, stripS]
  | jarr wsEnd elems =>
    simp only [toEs, to_json, stripS]
    rw [to_json_elems elems]
    rw [show ("[" : String) = String.mk ['['] from rfl,
      show ("]" : String) = String.mk [']'] from rfl, mk_append, mk_append]
    congr 1
  | jobj wsEnd fields =>
    simp only [toEs, to_json, stripS]
    rw [to_json_fields_toEs fields]
    rw [show String.singleton lbraceChar = String.mk [lbraceChar] from rfl,
      show String.singleton rbraceChar = String.mk [rbraceChar] from rfl,
      mk_append, mk_append]
    congr 1

/-- Array elements joined with `","`. -/
theorem to_json_elems (es : SElems) :
    join_comma (to_json_list (toEsElems es)) = String.mk (stripElems es) := by
  cases es with
  | nil => simp only [toEsElems, to_json_list, join_comma, stripElems]
  | cons w v pw rest =>
    cases rest with
    | nil =>
      simp only [toEsElems, to_json_list, join_comma, stripElems,
        stripElemsTail]
      rw [to_json_toEs v]
      congr 1
      simp
    | cons w2 v2 pw2 rest2 =>
      simp only [toEsElems, to_json_list, join_comma]
      rw [to_json_toEs v]
      have h2 := to_json_elems (SElems.cons w2 v2 pw2 rest2)
      simp only [toEsElems, to_json_list] at h2
      rw [h2]
      rw [show ("," : String) = String.mk [','] from rfl, mk_append,
        mk_append]
      congr 1
      simp only [stripElems, stripElemsTail]
      simp

/-- Object fields joined with `","`, each rendered `key:value`. -/
theorem to_json_fields_toEs (fs : SFields) :
    join_comma (to_json_fields (toEsFields fs))
      = String.mk (stripFields fs) := by
  cases fs with
  | nil => simp only [toEsFields, to_json_fields, join_comma, stripFields]
  | cons w key wa wb v pw rest =>
    cases rest with
    | nil =>
      simp only [toEsFields, to_json_fields, join_comma, stripFields,
        stripFieldsTail]
      rw [to_json_toEs v]
      rw [show (":" : String) = String.mk [':'] from rfl, mk_append,
        mk_append]
      congr 1
      simp
    | cons w2 key2 wa2 wb2 v2 pw2 rest2 =>
      simp only [toEsFields, to_json_fields, join_comma]
      rw [to_json_toEs v]
      have h2 := to_json_fields_toEs
        (SFields.cons w2 key2 wa2 wb2 v2 pw2 rest2)
      simp only [toEsFields, to_json_fields] at h2
      rw [h2]
      rw [show (":" : String) = String.mk [':'] from rfl,
        show ("," : String) = String.mk [','] from rfl, mk_append,
        mk_append, mk_append, mk_append]
      congr 1
      simp only [stripFields, stripFieldsTail]
      simp

end

/-- `EsJsonAnalyzer::new` on a non-empty text yields the canonical state
at position 0. -/
theorem analyzer_new_cons (c : Char) (rest : List Char) :
    EsJsonAnalyzer.analyzer_new (String.mk (c :: rest))
      = some (stat (c :: rest) 0) := rfl

/-- **C8.** JSON round-trip on the well-formed texts the library consumes:
a well-formed JSON text with explicit whitespace is described by an
`SJson` term `v`, whose rendered form `renderS v` is the input text `x`.
`from_json` parses `x` to exactly the tree `toEs v` (no panic, no fuel
exhaustion), and `to_json` of that tree is `String.mk (stripS v)` — the
same text with the inter-token whitespace removed and everything else
(string and literal bytes, object key order, quoted keys) byte-for-byte
preserved.  So `to_json (from_json x) = x` up to whitespace. -/
theorem c8_json_round_trip (v : SJson) (hv : validS v = true) :
    EsJsonAnalyzer.from_json (String.mk (renderS v)) = PRes.ok (toEs v) ∧
    to_json (toEs v) = String.mk (stripS v) := by
  refine ⟨?_, to_json_toEs v⟩
  obtain ⟨c, rest, hcr, -, -, -, -⟩ := renderS_head v hv
  have hnew : EsJsonAnalyzer.analyzer_new (String.mk (renderS v))
      = some (stat (renderS v) 0) := by
    rw [hcr]
    exact analyzer_new_cons c rest
  have hfuel : fcost v ≤ 3 * (stat (renderS v) 0).length + 8 := by
    have h := fcost_le v hv
    simp only [stat]
    omega
  have hdrop0 : (renderS v).drop 0 = renderS v ++ [] := by simp
  obtain ⟨st', hval, -⟩ := read_json_value_run (renderS v)
    (3 * (stat (renderS v) 0).length + 8) v 0 [] hv hfuel hdrop0
    (litSafe_of_stop v [] (Or.inl rfl))
  rw [EsJsonAnalyzer.from_json, hnew]
  simp only []
  rw [hval]
  simp only [PRes.bind]

/-- Witness for `c8_json_round_trip` on the concrete text
`{ "count": 3}` (an object with one field, a space before the key and
after the colon, and a literal value). -/
theorem c8_json_round_trip_witness :
    validS (SJson.jobj [] (SFields.cons [' ']
      ['c', 'o', 'u', 'n', 't'] [] [' '] (SJson.jlit ['3']) []
      SFields.nil)) = true ∧
    (EsJsonAnalyzer.from_json (String.mk (renderS (SJson.jobj []
        (SFields.cons [' '] ['c', 'o', 'u', 'n', 't'] [] [' ']
          (SJson.jlit ['3']) [] SFields.nil))))
      = PRes.ok (toEs (SJson.jobj [] (SFields.cons [' ']
          ['c', 'o', 'u', 'n', 't'] [] [' '] (SJson.jlit ['3']) []
          SFields.nil))) ∧
    to_json (toEs (SJson.jobj [] (SFields.cons [' ']
        ['c', 'o', 'u', 'n', 't'] [] [' '] (SJson.jlit ['3']) []
        SFields.nil)))
      = String.mk (stripS (SJson.jobj [] (SFields.cons [' ']
          ['c', 'o', 'u', 'n', 't'] [] [' '] (SJson.jlit ['3']) []
          SFields.nil)))) :=
  ⟨by decide, c8_json_round_trip (SJson.jobj [] (SFields.cons [' ']
    ['c', 'o', 'u', 'n', 't'] [] [' '] (SJson.jlit ['3']) []
    SFields.nil)) (by decide)⟩

end EsDeepPager
